import Mathlib

/-!
Verification of the orthogonal-array / transversal-design module
(`sage/combinat/designs/orthogonal_arrays.py`).

The development shallowly embeds the module's data model and operations:

* the three-valued existence verdict (True / False / Unknown),
* the process-wide existence cache `_OA_cache` with its three access
  functions,
* the resolver `orthogonal_array` (with its external collaborators --
  projective planes, the construction databases, the recursive-construction
  finder -- abstracted as an environment of oracles),
* `TD_product`, `OA_find_disjoint_blocks`, `OA_relabel`,
  `incomplete_orthogonal_array` and `OA_from_wider_OA`.

Rows of an array are `List ℕ`; an array is a `List (List ℕ)`.  The checker
`is_orthogonal_array` lives in the external compiled module `designs_pyx`,
whose source is not part of this repository; it is modelled from the spec's
validity law (row count `n^t`, entries in `[0,n)`, and every `t`-subset of
columns showing every length-`t` tuple exactly once).

Python 2 conventions that matter are reproduced exactly and are flagged by
comments where they occur: comparisons of an integer against `None`
(`int < None` is false, `int >= None` is true), the falsiness of the
`Unknown` object, and the seeding of the cache with `Infinity` records for
`n = 0` and `n = 1`.
-/

set_option maxHeartbeats 1600000

namespace OASpec

/-- Three-valued existence verdict of the module: True / False / Unknown. -/
inductive TriBool where
  | T
  | F
  | U
deriving DecidableEq

/-- Truthiness of a verdict in a Python boolean context.  The module relies on
the fact that the `Unknown` object is falsy. -/
def TriBool.toBool : TriBool → Bool
  | .T => true
  | .F => false
  | .U => false

/-- One record of the existence cache `_OA_cache`: for a fixed alphabet size
`n`, the four breakpoints over the `k` axis.  In `max_true`, `none` encodes
the value `Infinity` carried by the seeded records for `n = 0` and `n = 1`;
in the other three fields `none` encodes the Python value `None`. -/
structure OACacheEntry where
  max_true : Option ℕ
  min_unknown : Option ℕ
  max_unknown : Option ℕ
  min_false : Option ℕ
deriving DecidableEq

/-- The cache is a dictionary keyed by `n`. -/
abbrev OACache := ℕ → Option OACacheEntry

/-- The initial dictionary `_OA_cache`, seeded with the records
`{0: (Infinity, None, None, None), 1: (Infinity, None, None, None)}`. -/
def OA_cache_init : OACache :=
  fun n => if n = 0 ∨ n = 1 then some ⟨none, none, none, none⟩ else none

/-- The tightening of a single record performed by `_OA_cache_set(k, _,
truth_value)`.  The comparisons mirror the source under Python 2 semantics:
`k > Infinity` is false (an `Infinity` in `max_true` is kept) and `k < None`
is false (a `None` in `min_false` is kept). -/
def OA_cache_update (k : ℕ) (v : TriBool) (e : OACacheEntry) : OACacheEntry :=
  match v with
  | .T =>
    ⟨(match e.max_true with
      | none => none
      | some m => if m < k then some k else some m),
      e.min_unknown, e.max_unknown, e.min_false⟩
  | .U =>
    ⟨e.max_true,
      some (match e.min_unknown with | none => k | some m => if k < m then k else m),
      some (match e.max_unknown with | none => k | some m => if m < k then k else m),
      e.min_false⟩
  | .F =>
    ⟨e.max_true, e.min_unknown, e.max_unknown,
      (match e.min_false with
      | none => none
      | some m => if k < m then some k else some m)⟩

/-- The update `_OA_cache_set(k, n, truth_value)`.  A missing record defaults
to `(0, None, None, n+2)`. -/
def OA_cache_set (k n : ℕ) (v : TriBool) (c : OACache) : OACache :=
  fun m =>
    if m = n then some (OA_cache_update k v ((c n).getD ⟨some 0, none, none, some (n + 2)⟩))
    else c m

/-- The breakpoint tests of `_OA_cache_get(k, _)` on one record.  Under
Python 2 semantics, `k <= Infinity` is true, `k <= None` is false (third
breakpoint) and `k >= None` is true (fourth breakpoint). -/
def OA_cache_lookup (k : ℕ) (e : OACacheEntry) : Option TriBool :=
  if (match e.max_true with | none => true | some m => decide (k ≤ m)) then some .T
  else if (match e.min_unknown, e.max_unknown with
    | some mu, some Mu => decide (mu ≤ k) && decide (k ≤ Mu)
    | some _, none => false
    | none, _ => false) then some .U
  else if (match e.min_false with | none => true | some m => decide (m ≤ k)) then some .F
  else none

/-- The query `_OA_cache_get(k, n)`: a missing record reports absent. -/
def OA_cache_get (k n : ℕ) (c : OACache) : Option TriBool :=
  (c n).bind (fun e => OA_cache_lookup k e)

/-- The helper `_OA_cache_construction_available(k, n)`: answers from the
cache alone whether attempting a direct construction is worthwhile. -/
def OA_cache_construction_available (k n : ℕ) (c : OACache) : TriBool :=
  (c n).elim .U (fun e =>
    if (match e.max_true with | none => true | some m => decide (k ≤ m)) then .T
    else if (match e.min_unknown with | none => false | some mu => decide (mu ≤ k)) then .F
    else .U)

/-- Cache states reachable from the seeded initial dictionary by update
operations.  Every write any function of the module performs on the cache
goes through `_OA_cache_set`, so closing the initial state under arbitrary
`OA_cache_set` applications covers every state reachable by sequences of
`orthogonal_array`, `transversal_design` and `_OA_cache_set` calls
(reads do not modify the dictionary). -/
inductive CacheReachable : OACache → Prop where
  | init : CacheReachable OA_cache_init
  | set (k n : ℕ) (v : TriBool) {c : OACache} (h : CacheReachable c) :
      CacheReachable (OA_cache_set k n v c)

/-- The per-record invariant claimed by the spec: `0 ≤ max_true` and, whenever
both unknown breakpoints are defined,
`max_true < min_unknown ≤ max_unknown < min_false`.  An undefined `max_true`
is `Infinity` (so no finite `min_unknown` can exceed it) and an undefined
`min_false` imposes no upper constraint. -/
def cache_band_invariant (c : OACache) : Prop :=
  ∀ n e, c n = some e →
    (match e.max_true with | none => True | some m => 0 ≤ m) ∧
    (∀ mu Mu, e.min_unknown = some mu → e.max_unknown = some Mu →
      (match e.max_true with | none => False | some m => m < mu) ∧
      mu ≤ Mu ∧
      (match e.min_false with | none => True | some m => Mu < m))

/-- The part of the claimed invariant that survives arbitrary update
sequences: `0 ≤ max_true` and, whenever both unknown breakpoints are defined,
`min_unknown ≤ max_unknown`. -/
def cache_band_invariant_amended (c : OACache) : Prop :=
  ∀ n e, c n = some e →
    (match e.max_true with | none => True | some m => 0 ≤ m) ∧
    (∀ mu Mu, e.min_unknown = some mu → e.max_unknown = some Mu → mu ≤ Mu)

/-- Apply a sequence of `_OA_cache_set` operations (left to right); an
operation is a triple `(k, n, truth_value)`. -/
def OA_cache_run (ops : List (ℕ × ℕ × TriBool)) (c : OACache) : OACache :=
  ops.foldl (fun c op => OA_cache_set op.1 op.2.1 op.2.2 c) c

/-- All length-`t` tuples over the alphabet `[0, n)`, in the order produced by
`itertools.product(range(n), repeat=t)` (first coordinate outermost). -/
def tuples (n : ℕ) : ℕ → List (List ℕ)
  | 0 => [[]]
  | t + 1 => (List.range n).flatMap (fun x => (tuples n t).map (fun l => x :: l))

/-- Modelled from the spec: the checker `is_orthogonal_array(OA, k, n, t)` of
the external compiled module `designs_pyx`, which is not part of this
repository.  Following the spec's validity law, it holds iff the array has
exactly `n^t` rows, every row has `k` entries all in `[0, n)`, and for every
`t`-subset of column indices every length-`t` tuple over `[0, n)` occurs in
those columns in exactly one row. -/
def is_orthogonal_array (OA : List (List ℕ)) (k n t : ℕ) : Bool :=
  decide (OA.length = n ^ t) &&
  OA.all (fun R => decide (R.length = k) && R.all (fun v => decide (v < n))) &&
  ((List.range k).sublistsLen t).all (fun cols =>
    (tuples n t).all (fun tup =>
      decide (OA.countP (fun R => decide (cols.map (fun c => R.getD c 0) = tup)) = 1)))

/-- The check `is_transversal_design(B, k, n)` from the source: reduce every
entry modulo `n` and check the result as an `OA(k, n, 2)`. -/
def is_transversal_design (B : List (List ℕ)) (k n : ℕ) : Bool :=
  is_orthogonal_array (B.map (fun R => R.map (fun x => x % n))) k n 2

/-- Failure modes of the module, mirroring the Python exception types it
raises: ValueError, EmptySetError, NotImplementedError, an assertion failure
(a failed check), and RuntimeError (the relabel contract breach). -/
inductive OAErr where
  | valueError
  | emptySetError
  | notImplementedError
  | assertionError
  | runtimeError
deriving DecidableEq

/-- Outcome of a resolver call: a built array, or a three-valued existence
verdict. -/
inductive OAOutput where
  | arr (A : List (List ℕ))
  | tri (v : TriBool)
deriving DecidableEq

/-- Truthiness of a resolver outcome in a Python boolean context: a verdict
by its truthiness, an array by nonemptiness. -/
def OAOutput.truthy : OAOutput → Bool
  | .tri v => v.toBool
  | .arr A => !A.isEmpty

/-- The external collaborators of the resolver, abstracted as oracles:
`projective_plane(n, existence=True)`; the composition of
`projective_plane(n, check=False)` with `projective_plane_to_OA` (which may
raise); the `OA_constructions` and `MOLS_constructions` database tables
(maximal reachable `k` paired with the prebuilt object); the `TD_6_12`
table; `find_recursive_construction(k, n)` composed with the invocation
`f(*args)` of the found builder; and the binary integer-program solver used
by `OA_find_disjoint_blocks`, returning a selection vector or `none` on
infeasibility. -/
structure OAEnv where
  pp_exists : ℕ → TriBool
  pp_OA : ℕ → Except OAErr (List (List ℕ))
  OA_constructions : ℕ → Option (ℕ × List (List ℕ))
  MOLS_constructions : ℕ → Option (ℕ × List (List (List ℕ)))
  TD_6_12 : List (List ℕ)
  find_recursive : ℕ → ℕ → Option (List (List ℕ))
  solve_ilp : List (List ℕ) → ℕ → ℕ → ℕ → Option (List Bool)

/-- The function `OA_from_wider_OA(OA, k)`: keep the array if its first row
already has `k` entries, else truncate every row to its first `k` entries.
(On an empty array the source would fault reading `OA[0]`; the module never
passes one.) -/
def OA_from_wider_OA (OA : List (List ℕ)) (k : ℕ) : List (List ℕ) :=
  match OA with
  | [] => []
  | R :: _ => if R.length = k then OA else OA.map (fun L => L.take k)

/-- The tail of every checked construction branch of `orthogonal_array`: the
optional post-construction validation (`assert is_orthogonal_array(OA, k, n,
t)`) followed by returning the array. -/
def finishCheck (OA : List (List ℕ)) (k n t : ℕ) (check : Bool) (cache : OACache) :
    Except OAErr OAOutput × OACache :=
  if check = true ∧ is_orthogonal_array OA k n t = false then (.error .assertionError, cache)
  else (.ok (.arr OA), cache)

/-- The non-trivial part of the resolver's priority chain, reached when
`n ≥ 2`, `t = 2` and `3 < k < n + 2`: the projective-plane equivalence, the
`OA_constructions` table, the `TD(6,12)` table, the `MOLS_constructions`
table, the recursive-construction search, and the final Unknown fallback.
`may_be_available` was computed from the cache before the chain started.
The projective-plane branch condition uses the truthiness of the verdict
(Unknown is falsy). -/
def oa_hard (env : OAEnv) (k n : ℕ) (check existence : Bool) (may_be_available : Bool)
    (cache : OACache) : Except OAErr OAOutput × OACache :=
  if (env.pp_exists n).toBool = true ∨ (k = n + 1 ∧ env.pp_exists n = .F) then
    let cache1 := OA_cache_set (n + 1) n (env.pp_exists n) cache
    if k = n + 1 then
      if existence then (.ok (.tri (env.pp_exists n)), cache1)
      else match env.pp_OA n with
        | .error e => (.error e, cache1)
        | .ok p => finishCheck p k n 2 check cache1
    else
      if existence then (.ok (.tri .T), cache1)
      else match env.pp_OA n with
        | .error e => (.error e, cache1)
        | .ok p => finishCheck (p.map (fun l => l.take k)) k n 2 check cache1
  else if may_be_available = true ∧
      (match env.OA_constructions n with | some km => decide (k ≤ km.1) | none => false) = true then
    match env.OA_constructions n with
    | some km =>
      let cache1 := OA_cache_set km.1 n .T cache
      if existence then (.ok (.tri .T), cache1)
      else finishCheck (OA_from_wider_OA km.2 k) k n 2 check cache1
    | none => (.error .assertionError, cache)
  else if may_be_available = true ∧ k ≤ 6 ∧ n = 12 then
    let cache1 := OA_cache_set 6 12 .T cache
    if existence then (.ok (.tri .T), cache1)
    else finishCheck (env.TD_6_12.map (fun R => R.map (fun x => x % n))) k n 2 check cache1
  else if may_be_available = true ∧
      (match env.MOLS_constructions n with | some mm => decide (k - 2 ≤ mm.1) | none => false) = true then
    match env.MOLS_constructions n with
    | some mm =>
      let cache1 := OA_cache_set (mm.1 + 2) n .T cache
      if existence then (.ok (.tri .T), cache1)
      else
        finishCheck (OA_from_wider_OA
          ((List.range n).flatMap (fun i => (List.range n).map (fun j =>
            [i, j] ++ mm.2.map (fun m => (m.getD i []).getD j 0)))) k) k n 2 check cache1
    | none => (.error .assertionError, cache)
  else if may_be_available = true ∧ (env.find_recursive k n).isSome = true then
    let cache1 := OA_cache_set k n .T cache
    if existence then (.ok (.tri .T), cache1)
    else finishCheck ((env.find_recursive k n).getD []) k n 2 check cache1
  else
    let cache1 := OA_cache_set k n .U cache
    if existence then (.ok (.tri .U), cache1)
    else (.error .notImplementedError, cache1)

/-- The resolver `orthogonal_array(k, n, t, check, existence)` for a given
column count `k` (the `k = None` mode is outside the claims treated here).
Returns the outcome plus the updated cache; a raised exception is an
`.error`, with the cache updates made before the raise preserved.  The chain
follows the source: the `k < t` guard, the existence-cache shortcut (only
for `t = 2`), the `n ≤ 1` / `k ≥ n + t` / `k ≤ t` / `t ≠ 2` / `k ≤ 3`
branches -- the `k ≤ t` and `k ≤ 3` branches return their arrays without the
final check -- and then the hard branches. -/
def orthogonal_array (env : OAEnv) (k n t : ℕ) (check existence : Bool)
    (cache : OACache) : Except OAErr OAOutput × OACache :=
  if k < t then (.error .valueError, cache)
  else if existence = true ∧ (OA_cache_get k n cache).isSome = true ∧ t = 2 then
    ((OA_cache_get k n cache).elim (.error .assertionError) (fun v => .ok (.tri v)), cache)
  else
    let may_be_available := decide (OA_cache_construction_available k n cache ≠ .F)
    if n ≤ 1 then
      if existence then (.ok (.tri .T), cache)
      else finishCheck (List.replicate n (List.replicate k 0)) k n t check cache
    else if n + t ≤ k then
      if existence then (.ok (.tri .F), cache) else (.error .emptySetError, cache)
    else if k ≤ t then
      if existence then (.ok (.tri .T), cache)
      else (.ok (.arr (tuples n k)), cache)
    else if t ≠ 2 then
      if existence then (.ok (.tri .U), cache) else (.error .notImplementedError, cache)
    else if k ≤ 3 then
      if existence then (.ok (.tri .T), cache)
      else (.ok (.arr ((List.range n).flatMap (fun i =>
        (List.range n).map (fun j => [i, j, (i + j) % n])))), cache)
    else oa_hard env k n check existence may_be_available cache

/-- The block list built by `TD_product`: every block of `TD1` paired with
every block of `TD2`, coordinate `i` combined as `x1 * n2 + (x2 % n2)`. -/
def TD_product_blocks (TD1 : List (List ℕ)) (TD2 : List (List ℕ)) (n2 : ℕ) :
    List (List ℕ) :=
  TD1.flatMap (fun X1 => TD2.map (fun X2 =>
    List.zipWith (fun x1 x2 => x1 * n2 + x2 % n2) X1 X2))

/-- `TD_product(k, TD1, n1, TD2, n2, check)` from the source: build the
product blocks, optionally assert `is_transversal_design`, and return. -/
def TD_product (k : ℕ) (TD1 : List (List ℕ)) (n1 : ℕ) (TD2 : List (List ℕ)) (n2 : ℕ)
    (check : Bool) : Except OAErr (List (List ℕ)) :=
  if check = true ∧ is_transversal_design (TD_product_blocks TD1 TD2 n2) k (n1 * n2) = false then
    .error .assertionError
  else .ok (TD_product_blocks TD1 TD2 n2)

/-- The constraint system of the binary integer program set up by
`OA_find_disjoint_blocks`: one binary variable per row; an equality
constraint fixing the number of selected rows to `x`; and, for every column
`i < k` and symbol `j < n`, a packing constraint allowing at most one
selected row carrying `j` in column `i`. -/
def disjoint_feasible (OA : List (List ℕ)) (k n x : ℕ) (b : List Bool) : Bool :=
  decide (b.length = OA.length) &&
  decide ((List.range OA.length).countP (fun c => b.getD c false) = x) &&
  (List.range k).all (fun i => (List.range n).all (fun j =>
    decide ((List.range OA.length).countP
      (fun c => b.getD c false && decide ((OA.getD c []).getD i 0 = j)) ≤ 1)))

/-- Soundness contract of the external integer-program solver (spec section
on external interfaces: it returns a feasible assignment or signals
infeasibility): any assignment it returns satisfies the constraints it was
given. -/
def SolverSound (solver : List (List ℕ) → ℕ → ℕ → ℕ → Option (List Bool)) : Prop :=
  ∀ OA k n x b, solver OA k n x = some b → disjoint_feasible OA k n x b = true

/-- The selected rows of a solver assignment, in row order:
`[OA[i] for i, v in b.items() if v]`. -/
def disjoint_select (OA : List (List ℕ)) (b : List Bool) : List (List ℕ) :=
  ((List.range OA.length).filter (fun c => b.getD c false)).map (fun c => OA.getD c [])

/-- `OA_find_disjoint_blocks(OA, k, n, x)`: solve the integer program; an
infeasible program is reported as a ValueError. -/
def OA_find_disjoint_blocks (solver : List (List ℕ) → ℕ → ℕ → ℕ → Option (List Bool))
    (OA : List (List ℕ)) (k n x : ℕ) : Except OAErr (List (List ℕ)) :=
  match solver OA k n x with
  | none => .error .valueError
  | some b => .ok (disjoint_select OA b)

/-- Python's `zip(*blocks)` for a nonempty list of blocks: the columns,
truncated at the shortest block. -/
def zip_star (blocks : List (List ℕ)) : List (List ℕ) :=
  match blocks with
  | [] => []
  | B :: rest =>
    (List.range (rest.foldl (fun m C => min m C.length) B.length)).map
      (fun i => blocks.map (fun C => C.getD i 0))

/-- The per-column key list of the relabelling dictionary built by
`OA_relabel` for a column whose anchor values are `B`:
`[xx for xx in range(n) if xx not in B] + list(B)`.  The dictionary
`dict(zip(keys, range(n)))` sends each key to its position in this list
(there are no duplicate keys), which is what applying it computes below. -/
def relabel_keys (n : ℕ) (B : List ℕ) : List ℕ :=
  (List.range n).filter (fun y => decide (y ∉ B)) ++ B

/-- `OA_relabel(OA, k, n, blocks, matrix)`.  An empty `blocks` list is falsy
and skips the anchor relabelling; two anchor blocks sharing a value in some
column raise RuntimeError.  Hole markers do not arise in the claims treated
here, so entries are plain naturals and the matrix pass maps every entry. -/
def OA_relabel (OA : List (List ℕ)) (k n : ℕ) (blocks : List (List ℕ))
    (matrix : Option (List (List ℕ))) : Except OAErr (List (List ℕ)) :=
  let step1 : Except OAErr (List (List ℕ)) :=
    if blocks.isEmpty then .ok OA
    else
      let cols := zip_star blocks
      if cols.any (fun B => !decide B.Nodup) then .error .runtimeError
      else .ok (OA.map (fun R =>
        R.enum.map (fun p => (relabel_keys n (cols.getD p.1 [])).indexOf p.2)))
  match step1 with
  | .error e => .error e
  | .ok OA1 =>
    .ok (match matrix with
      | none => OA1
      | some mx => OA1.map (fun R => R.enum.map (fun p => (mx.getD p.1 []).getD p.2 0)))

/-- The tail of `incomplete_orthogonal_array` once the independent set `IS`
has been found: the assertion `x == len(independent_set)`, the removal of the
selected blocks from the array (`list.remove` by value, modelled by
`List.erase`; on the success paths every selected block is present, where the
two agree), and the anchor relabelling. -/
def ioa_finish (OA IS : List (List ℕ)) (k n x : ℕ) (c : OACache) :
    Except OAErr OAOutput × OACache :=
  if x ≠ IS.length then (.error .assertionError, c)
  else
    match OA_relabel (IS.foldl (fun acc B => acc.erase B) OA) k n IS none with
    | .error e => (.error e, c)
    | .ok res => (.ok (.arr res), c)

/-- `incomplete_orthogonal_array(k, n, holes_sizes, existence)`.  The chain
follows the source: the positivity assertion on the hole sizes; the
`sum > n` nonexistence; the not-implemented guard for holes of size other
than 1; the `x ≤ 1` easy case; the lemma-2.3 existence shortcut; the
projective-plane obstruction `x ≥ 2, k = n + 1`; the `OA(k+1, n)` route
(blocks whose last coordinate is 0, truncated); the disjoint-block search on
a built `OA(k, n)` (the source solves the same program twice, which the
single match models since the solver is a function); and the final
delegation.  `B[-1]` is the last entry of a block (`getLastD`; rows are
nonempty on every reachable path). -/
def incomplete_orthogonal_array (env : OAEnv) (k n : ℕ) (holes_sizes : List ℕ)
    (existence : Bool) (cache : OACache) : Except OAErr OAOutput × OACache :=
  if ¬ (holes_sizes.all (fun s => decide (0 < s)) = true) then (.error .assertionError, cache)
  else
    let y := holes_sizes.sum
    let x := holes_sizes.length
    if n < y then
      if existence then (.ok (.tri .F), cache) else (.error .emptySetError, cache)
    else if holes_sizes.any (fun s => decide (s ≠ 1)) = true then
      if existence then (.ok (.tri .U), cache) else (.error .notImplementedError, cache)
    else if x ≤ 1 then
      if existence then orthogonal_array env k n 2 true true cache
      else
        match orthogonal_array env k n 2 true false cache with
        | (.ok (.arr OA), c1) => ioa_finish OA (OA.take x) k n x c1
        | (.ok (.tri _), c1) => (.error .assertionError, c1)
        | (.error e, c1) => (.error e, c1)
    else if x ≤ 3 ∧ k - 1 < n ∧ 3 ≤ k ∧ existence = true then
      orthogonal_array env k n 2 true true cache
    else if 2 ≤ x ∧ k = n + 1 then
      if existence then (.ok (.tri .F), cache) else (.error .emptySetError, cache)
    else
      match orthogonal_array env (k + 1) n 2 true true cache with
      | (.error e, c1) => (.error e, c1)
      | (.ok r1, c1) =>
        if r1.truthy = true then
          if existence then (.ok (.tri .T), c1)
          else
            match orthogonal_array env (k + 1) n 2 true false c1 with
            | (.error e, c2) => (.error e, c2)
            | (.ok (.tri _), c2) => (.error .assertionError, c2)
            | (.ok (.arr OA1), c2) =>
              ioa_finish (OA1.map (fun B => B.dropLast))
                (((OA1.filter (fun B => decide (B.getLastD 0 = 0))).map
                  (fun B => B.dropLast)).take x) k n x c2
        else
          match orthogonal_array env k n 2 true true c1 with
          | (.error e, c2) => (.error e, c2)
          | (.ok r2, c2) =>
            if r2.truthy = true then
              match orthogonal_array env k n 2 true false c2 with
              | (.error e, c3) => (.error e, c3)
              | (.ok (.tri _), c3) => (.error .assertionError, c3)
              | (.ok (.arr OA), c3) =>
                match OA_find_disjoint_blocks env.solve_ilp OA k n x with
                | .error _ =>
                  if existence then (.ok (.tri .U), c3)
                  else (.error .notImplementedError, c3)
                | .ok IS =>
                  if existence then (.ok (.tri .T), c3)
                  else ioa_finish OA IS k n x c3
            else orthogonal_array env k n 2 true existence c2

/-- A concrete environment with empty collaborators, used to instantiate
theorems at concrete inputs. -/
def env_triv : OAEnv :=
  ⟨fun _ => .U, fun _ => .error .emptySetError, fun _ => none, fun _ => none, [],
   fun _ _ => none, fun _ _ _ _ => none⟩

/-- A concrete integer-program solver for the witness: it proposes a fixed
candidate selection and returns it only after verifying feasibility. -/
def w7solver : List (List ℕ) → ℕ → ℕ → ℕ → Option (List Bool) :=
  fun OA k n x =>
    if disjoint_feasible OA k n x [true, false, false, true] = true then
      some [true, false, false, true]
    else none

/-! ### Theorems -/

/-- Helper: length of a flatMap as a sum of lengths. -/
theorem length_flatMap_sum {α β : Type} (l : List α) (f : α → List β) :
    (l.flatMap f).length = (l.map (fun a => (f a).length)).sum := by
  rw [List.flatMap, List.length_flatten, List.map_map]
  rfl

/-- Helper: countP over a flatMap as a sum of inner counts. -/
theorem countP_flatMap_sum {α β : Type} (p : β → Bool) (l : List α) (f : α → List β) :
    (l.flatMap f).countP p = (l.map (fun a => (f a).countP p)).sum := by
  rw [List.flatMap, List.countP_flatten, List.map_map]
  rfl

/-- Helper: a countP is the sum of the indicator values over the list. -/
theorem sum_map_ite_eq_countP {α : Type} (p : α → Bool) (l : List α) :
    (l.map (fun a => if p a = true then 1 else 0)).sum = l.countP p := by
  induction l with
  | nil => rfl
  | cons a l ih =>
    rw [List.map_cons, List.sum_cons, ih, List.countP_cons]
    by_cases hp : p a = true <;> simp [hp] <;> omega

/-- The tuple enumeration has exactly `n^t` elements. -/
theorem tuples_length (n : ℕ) : ∀ t, (tuples n t).length = n ^ t := by
  intro t
  induction t with
  | zero => rfl
  | succ t ih =>
    show ((List.range n).flatMap fun x => (tuples n t).map (fun l => x :: l)).length = n ^ (t + 1)
    rw [length_flatMap_sum]
    have h1 : ((List.range n).map fun x => ((tuples n t).map (fun l => x :: l)).length) =
        (List.range n).map (fun _ => n ^ t) := by
      apply List.map_congr_left
      intro x _
      rw [List.length_map, ih]
    rw [h1, List.map_const', List.length_range, List.sum_const_nat]
    ring

/-- Membership in the tuple enumeration. -/
theorem mem_tuples {n : ℕ} : ∀ {t : ℕ} {l : List ℕ},
    l ∈ tuples n t ↔ l.length = t ∧ ∀ x ∈ l, x < n := by
  intro t
  induction t with
  | zero =>
    intro l
    constructor
    · intro h
      rw [show tuples n 0 = [[]] from rfl, List.mem_singleton] at h
      subst h
      simp
    · intro ⟨h1, _⟩
      rw [List.length_eq_zero] at h1
      subst h1
      exact List.mem_singleton.2 rfl
  | succ t ih =>
    intro l
    show l ∈ (List.range n).flatMap (fun x => (tuples n t).map (fun l => x :: l)) ↔ _
    rw [List.mem_flatMap]
    constructor
    · rintro ⟨x, hx, hl⟩
      rw [List.mem_map] at hl
      obtain ⟨l', hl', rfl⟩ := hl
      obtain ⟨hlen, hmem⟩ := ih.1 hl'
      refine ⟨by simp [hlen], ?_⟩
      intro y hy
      rcases List.mem_cons.1 hy with h | h
      · subst h
        exact List.mem_range.1 hx
      · exact hmem y h
    · rintro ⟨hlen, hmem⟩
      cases l with
      | nil => simp at hlen
      | cons x l' =>
        refine ⟨x, List.mem_range.2 (hmem x (List.mem_cons_self x l')), ?_⟩
        rw [List.mem_map]
        have hlen' : l'.length = t := by
          simp only [List.length_cons] at hlen
          omega
        exact ⟨l', ih.2 ⟨hlen', fun y hy => hmem y (List.mem_cons_of_mem x hy)⟩, rfl⟩

/-- The tuple enumeration has no duplicates. -/
theorem tuples_nodup (n : ℕ) : ∀ t, (tuples n t).Nodup := by
  intro t
  induction t with
  | zero => simp [show tuples n 0 = [[]] from rfl]
  | succ t ih =>
    show ((List.range n).flatMap fun x => (tuples n t).map (fun l => x :: l)).Nodup
    rw [List.nodup_flatMap]
    constructor
    · intro x _
      exact ih.map (fun a b h => by injection h)
    · refine (List.pairwise_lt_range n).imp ?_
      intro x y hxy
      intro l hlx hly
      rw [List.mem_map] at hlx hly
      obtain ⟨l1, _, rfl⟩ := hlx
      obtain ⟨l2, _, h2⟩ := hly
      injection h2 with h2a _
      omega


/-- Unfolding of the validity checker into its three propositional clauses. -/
theorem is_orthogonal_array_iff {OA : List (List ℕ)} {k n t : ℕ} :
    is_orthogonal_array OA k n t = true ↔
      OA.length = n ^ t ∧
      (∀ R ∈ OA, R.length = k ∧ ∀ v ∈ R, v < n) ∧
      (∀ cols ∈ (List.range k).sublistsLen t, ∀ tup ∈ tuples n t,
        OA.countP (fun R => decide (cols.map (fun c => R.getD c 0) = tup)) = 1) := by
  unfold is_orthogonal_array
  simp only [Bool.and_eq_true, List.all_eq_true, decide_eq_true_eq, and_assoc]

/-- Any strictly increasing pair below `k` is a 2-sublist of `range k`. -/
theorem pair_mem_sublistsLen_range {k i j : ℕ} (hij : i < j) (hj : j < k) :
    [i, j] ∈ (List.range k).sublistsLen 2 := by
  rw [List.mem_sublistsLen]
  refine ⟨?_, rfl⟩
  have hsplit : List.range' 0 j ++ List.range' j (k - j) = List.range k := by
    rw [List.range_eq_range']
    have h := List.range'_append_1 0 j (k - j)
    simp only [Nat.zero_add] at h
    rw [h]
    congr 1
    omega
  rw [← hsplit]
  have h1 : List.Sublist [i] (List.range' 0 j) := by
    rw [List.singleton_sublist, List.mem_range'_1]
    omega
  have h2 : List.Sublist [j] (List.range' j (k - j)) := by
    rw [List.singleton_sublist, List.mem_range'_1]
    omega
  exact List.Sublist.append h1 h2

/-- Any 2-sublist of `range k` is a strictly increasing pair below `k`. -/
theorem mem_sublistsLen_two_range {k : ℕ} {cols : List ℕ}
    (h : cols ∈ (List.range k).sublistsLen 2) :
    ∃ i j, i < j ∧ j < k ∧ cols = [i, j] := by
  rw [List.mem_sublistsLen] at h
  obtain ⟨hsub, hlen⟩ := h
  match cols, hlen with
  | [i, j], _ =>
    have hp : List.Pairwise (· < ·) [i, j] :=
      List.Pairwise.sublist hsub (List.pairwise_lt_range k)
    have hj : j ∈ List.range k := hsub.subset (by simp)
    refine ⟨i, j, ?_, List.mem_range.1 hj, rfl⟩
    have := List.pairwise_cons.1 hp
    exact this.1 j (List.mem_cons_self j [])

/-- Length-2 tuples over `[0, n)` are the pairs of symbols below `n`. -/
theorem mem_tuples_two {n : ℕ} {tup : List ℕ} :
    tup ∈ tuples n 2 ↔ ∃ u v, u < n ∧ v < n ∧ tup = [u, v] := by
  rw [mem_tuples]
  constructor
  · rintro ⟨hlen, hmem⟩
    match tup, hlen with
    | [u, v], _ =>
      exact ⟨u, v, hmem u (by simp), hmem v (by simp), rfl⟩
  · rintro ⟨u, v, hu, hv, rfl⟩
    refine ⟨rfl, ?_⟩
    intro x hx
    rcases List.mem_cons.1 hx with h | h
    · subst h; exact hu
    · rcases List.mem_cons.1 h with h' | h'
      · subst h'; exact hv
      · cases h'

/-- The validity checker at strength 2, phrased over column pairs. -/
theorem is_orthogonal_array_two_iff {OA : List (List ℕ)} {k n : ℕ} :
    is_orthogonal_array OA k n 2 = true ↔
      OA.length = n ^ 2 ∧
      (∀ R ∈ OA, R.length = k ∧ ∀ v ∈ R, v < n) ∧
      (∀ i j u v, i < j → j < k → u < n → v < n →
        OA.countP (fun R => decide (R.getD i 0 = u) && decide (R.getD j 0 = v)) = 1) := by
  rw [is_orthogonal_array_iff]
  have hpred : ∀ (i j u v : ℕ),
      (fun R : List ℕ => decide ([i, j].map (fun c => R.getD c 0) = [u, v])) =
      (fun R : List ℕ => decide (R.getD i 0 = u) && decide (R.getD j 0 = v)) := by
    intro i j u v
    funext R
    simp [List.map_cons]
  constructor
  · rintro ⟨h1, h2, h3⟩
    refine ⟨h1, h2, ?_⟩
    intro i j u v hij hjk hu hv
    have := h3 [i, j] (pair_mem_sublistsLen_range hij hjk) [u, v]
      (mem_tuples_two.2 ⟨u, v, hu, hv, rfl⟩)
    rwa [hpred i j u v] at this
  · rintro ⟨h1, h2, h3⟩
    refine ⟨h1, h2, ?_⟩
    intro cols hcols tup htup
    obtain ⟨i, j, hij, hjk, rfl⟩ := mem_sublistsLen_two_range hcols
    obtain ⟨u, v, hu, hv, rfl⟩ := mem_tuples_two.1 htup
    rw [hpred i j u v]
    exact h3 i j u v hij hjk hu hv

/-- Validity of the checker is invariant under permutation of the rows. -/
theorem is_orthogonal_array_perm {OA OB : List (List ℕ)} (h : OA.Perm OB) {k n t : ℕ} :
    is_orthogonal_array OA k n t = true ↔ is_orthogonal_array OB k n t = true := by
  rw [is_orthogonal_array_iff, is_orthogonal_array_iff, h.length_eq]
  constructor
  · rintro ⟨h1, h2, h3⟩
    refine ⟨h1, fun R hR => h2 R (h.mem_iff.2 hR), ?_⟩
    intro cols hcols tup htup
    rw [← h.countP_eq]
    exact h3 cols hcols tup htup
  · rintro ⟨h1, h2, h3⟩
    refine ⟨h1, fun R hR => h2 R (h.mem_iff.1 hR), ?_⟩
    intro cols hcols tup htup
    rw [h.countP_eq]
    exact h3 cols hcols tup htup

/-- On a row of length `t`, reading all `t` columns reproduces the row. -/
theorem map_getD_range_self (R : List ℕ) :
    (List.range R.length).map (fun c => R.getD c 0) = R := by
  apply List.ext_getElem
  · simp
  · intro i h1 h2
    have h1' : i < R.length := by simpa using h1
    simp only [List.getElem_map, List.getElem_range]
    exact List.getD_eq_getElem _ _ h1'

/-- Helper: in a duplicate-free list, a member is matched by exactly one
position. -/
theorem countP_eq_one_of_nodup_mem {α : Type} [DecidableEq α] {l : List α} {a : α}
    (hn : l.Nodup) (ha : a ∈ l) :
    l.countP (fun R => decide (R = a)) = 1 := by
  induction l with
  | nil => cases ha
  | cons b l ih =>
    rw [List.countP_cons]
    rcases List.mem_cons.1 ha with h | h
    · subst h
      have hb : a ∉ l := (List.nodup_cons.1 hn).1
      have h0 : l.countP (fun R => decide (R = a)) = 0 := by
        rw [List.countP_eq_zero]
        intro x hx
        simp only [decide_eq_true_eq]
        intro hxa
        subst hxa
        exact hb hx
      simp [h0]
    · have h1 := ih (List.nodup_cons.1 hn).2 h
      have hba : ¬ (b = a) := fun hb => (List.nodup_cons.1 hn).1 (hb ▸ h)
      simp [h1, hba]

/-- The full enumeration of `[0, n)`-tuples of length `t` is a valid
`OA(t, n, t)`: this is the array returned by the trivial `k ≤ t` branch. -/
theorem is_orthogonal_array_tuples (n t : ℕ) :
    is_orthogonal_array (tuples n t) t n t = true := by
  rw [is_orthogonal_array_iff]
  refine ⟨tuples_length n t, ?_, ?_⟩
  · intro R hR
    exact ⟨(mem_tuples.1 hR).1, (mem_tuples.1 hR).2⟩
  · intro cols hcols tup htup
    rw [List.mem_sublistsLen] at hcols
    have hcols' : cols = List.range t :=
      hcols.1.eq_of_length (by rw [hcols.2, List.length_range])
    subst hcols'
    have hcongr : ∀ R ∈ tuples n t,
        (decide ((List.range t).map (fun c => R.getD c 0) = tup) = true) ↔
        (decide (R = tup) = true) := by
      intro R hR
      have hlen : R.length = t := (mem_tuples.1 hR).1
      rw [show List.range t = List.range R.length by rw [hlen], map_getD_range_self R]
    rw [List.countP_congr hcongr]
    exact countP_eq_one_of_nodup_mem (tuples_nodup n t) htup

/-- Helper: a set at an index `n` leaves every other index unchanged. -/
theorem OA_cache_set_ne {k n : ℕ} {v : TriBool} {c : OACache} {m : ℕ} (h : m ≠ n) :
    OA_cache_set k n v c m = c m := by
  unfold OA_cache_set
  exact if_neg h

/-- Helper: the record written by a set at its own index. -/
theorem OA_cache_set_self (k n : ℕ) (v : TriBool) (c : OACache) :
    OA_cache_set k n v c n =
      some (OA_cache_update k v ((c n).getD ⟨some 0, none, none, some (n + 2)⟩)) := by
  unfold OA_cache_set
  exact if_pos rfl

/-- Helper for C9: a set sequence that never touches `n` leaves the record for
`n` absent. -/
theorem OA_cache_run_not_touching {n : ℕ} :
    ∀ (ops : List (ℕ × ℕ × TriBool)) (c : OACache), c n = none →
      (∀ op ∈ ops, op.2.1 ≠ n) → OA_cache_run ops c n = none := by
  intro ops
  induction ops with
  | nil => intro c hc _; exact hc
  | cons op rest ih =>
    intro c hc hops
    have hne : op.2.1 ≠ n := hops op (List.mem_cons_self op rest)
    have hstep : OA_cache_set op.1 op.2.1 op.2.2 c n = none := by
      rw [OA_cache_set_ne (fun h => hne h.symm)]
      exact hc
    exact ih _ hstep (fun o ho => hops o (List.mem_cons_of_mem _ ho))

/-- Helper: a get on an absent record reports absent. -/
theorem OA_cache_get_none {k n : ℕ} {c : OACache} (h : c n = none) :
    OA_cache_get k n c = none := by
  unfold OA_cache_get
  rw [h]
  rfl

/-- C5 (counterexample).  The module exposes `_OA_cache_set` directly, and the
three-step update sequence `set(5,10,True); set(3,10,Unknown); set(2,10,False)`
reaches a state whose record for `n = 10` is
`(max_true, min_unknown, max_unknown, min_false) = (5, 3, 3, 2)`, violating
both `max_true < min_unknown` and `max_unknown < min_false`. -/
theorem C5_cache_invariant_counterexample :
    CacheReachable
      (OA_cache_set 2 10 .F (OA_cache_set 3 10 .U (OA_cache_set 5 10 .T OA_cache_init))) ∧
    ¬ cache_band_invariant
      (OA_cache_set 2 10 .F (OA_cache_set 3 10 .U (OA_cache_set 5 10 .T OA_cache_init))) := by
  constructor
  · exact .set _ _ _ (.set _ _ _ (.set _ _ _ .init))
  · intro h
    have he : (OA_cache_set 2 10 .F (OA_cache_set 3 10 .U
        (OA_cache_set 5 10 .T OA_cache_init))) 10 = some ⟨some 5, some 3, some 3, some 2⟩ := by
      decide
    have h10 := (h 10 ⟨some 5, some 3, some 3, some 2⟩ he).2 3 3 rfl rfl
    simp only at h10
    omega

/-- C5 (amended).  In every reachable cache state, every record satisfies
`0 ≤ max_true`, and whenever `min_unknown` and `max_unknown` are both defined,
`min_unknown ≤ max_unknown`.  (The strict separations `max_true < min_unknown`
and `max_unknown < min_false` of the original claim fail, as the
counterexample shows.) -/
theorem C5_cache_invariant_amended {c : OACache} (h : CacheReachable c) :
    cache_band_invariant_amended c := by
  induction h with
  | init =>
    intro n e he
    unfold OA_cache_init at he
    by_cases hn : n = 0 ∨ n = 1
    · rw [if_pos hn] at he
      cases he
      exact ⟨trivial, by intro mu Mu h1 _; cases h1⟩
    · rw [if_neg hn] at he
      cases he
  | @set k n v c0 hc ih =>
    intro m e he
    by_cases hm : m = n
    · subst hm
      rw [OA_cache_set_self] at he
      injection he with he
      rcases hE : (c0 m).getD ⟨some 0, none, none, some (m + 2)⟩ with ⟨mt, mu0, Mu0, mf⟩
      rw [hE] at he
      have h0 : ∀ mu Mu, mu0 = some mu → Mu0 = some Mu → mu ≤ Mu := by
        intro mu Mu h1 h2
        cases hcm : c0 m with
        | none =>
          rw [hcm, Option.getD_none] at hE
          cases hE
          cases h1
        | some e1 =>
          rw [hcm, Option.getD_some] at hE
          have := (ih m e1 hcm).2 mu Mu
          rw [hE] at this
          exact this h1 h2
      subst he
      cases v with
      | T =>
        refine ⟨?_, h0⟩
        show (match (match mt with
          | none => none
          | some m0 => if m0 < k then some k else some m0) with
          | none => True | some m1 => 0 ≤ m1)
        cases mt with
        | none => trivial
        | some m0 => by_cases hlt : m0 < k <;> simp [hlt]
      | F =>
        refine ⟨?_, h0⟩
        cases mt with
        | none => trivial
        | some m0 => exact Nat.zero_le m0
      | U =>
        constructor
        · cases mt with
          | none => trivial
          | some m0 => exact Nat.zero_le m0
        · intro mu Mu h1 h2
          injection h1 with h1
          injection h2 with h2
          have hmu : mu ≤ k := by
            cases mu0 with
            | none => simp only at h1; omega
            | some m0 =>
              simp only at h1
              by_cases hlt : k < m0
              · rw [if_pos hlt] at h1; omega
              · rw [if_neg hlt] at h1; omega
          have hMu : k ≤ Mu := by
            cases Mu0 with
            | none => simp only at h2; omega
            | some m0 =>
              simp only at h2
              by_cases hlt : m0 < k
              · rw [if_pos hlt] at h2; omega
              · rw [if_neg hlt] at h2; omega
          omega
    · rw [OA_cache_set_ne hm] at he
      exact ih m e he

/-- Witness for C5 (amended): the amended invariant evaluated at a concrete
reachable state. -/
theorem C5_cache_invariant_amended_witness :
    cache_band_invariant_amended (OA_cache_set 4 10 .U OA_cache_init) :=
  C5_cache_invariant_amended (.set 4 10 .U .init)

/-- C6.  For every cache state: if `_OA_cache_get(k, n)` reports True, then
for every `k' < k` the query `_OA_cache_get(k', n)` reports True or reports no
record -- it never reports False or Unknown below `k`.  (In fact it always
reports True there.) -/
theorem C6_cache_get_monotone (c : OACache) (k k' n : ℕ)
    (h : OA_cache_get k n c = some TriBool.T) (hk : k' < k) :
    OA_cache_get k' n c = some TriBool.T ∨ OA_cache_get k' n c = none := by
  left
  unfold OA_cache_get at h ⊢
  cases hcn : c n with
  | none => simp only [hcn, Option.none_bind] at h; cases h
  | some e =>
    simp only [hcn, Option.some_bind] at h ⊢
    unfold OA_cache_lookup at h ⊢
    by_cases h1 : (match e.max_true with | none => true | some m => decide (k ≤ m)) = true
    · have h1' : (match e.max_true with | none => true | some m => decide (k' ≤ m)) = true := by
        cases hmt : e.max_true with
        | none => rfl
        | some m0 =>
          rw [hmt] at h1
          simp only [decide_eq_true_eq] at h1 ⊢
          omega
      rw [if_pos h1']
    · exfalso
      rw [if_neg h1] at h
      by_cases h2 : (match e.min_unknown, e.max_unknown with
          | some mu, some Mu => decide (mu ≤ k) && decide (k ≤ Mu)
          | some _, none => false
          | none, _ => false) = true
      · rw [if_pos h2] at h; cases h
      · rw [if_neg h2] at h
        by_cases h3 : (match e.min_false with | none => true | some m => decide (m ≤ k)) = true
        · rw [if_pos h3] at h; cases h
        · rw [if_neg h3] at h; cases h

/-- Witness for C6 at a concrete state: after recording True at `k = 5` for
`n = 10`, the query at `k' = 3 < 5` reports True. -/
theorem C6_cache_get_monotone_witness :
    OA_cache_get 5 10 (OA_cache_set 5 10 .T OA_cache_init) = some TriBool.T ∧
    (OA_cache_get 3 10 (OA_cache_set 5 10 .T OA_cache_init) = some TriBool.T ∨
      OA_cache_get 3 10 (OA_cache_set 5 10 .T OA_cache_init) = none) :=
  ⟨by decide, C6_cache_get_monotone _ 5 3 10 (by decide) (by decide)⟩

/-- C9 (counterexample).  The claim fails for `n = 0` (and `n = 1`): the
initial dictionary is seeded with a record for `n = 0`, and a get for `n = 0`
reports True rather than absent, before any operation concerning `n = 0`. -/
theorem C9_lazy_creation_counterexample :
    OA_cache_init 0 ≠ none ∧ OA_cache_get 5 0 OA_cache_init = some TriBool.T := by
  decide

/-- C9 (amended).  For every `n ≥ 2` the per-`n` record is created lazily, on
the first `set` concerning `n` (gets never create records): before it -- that
is, after any sequence of updates none of which concerns `n` -- the cache
holds no record for `n` and a get for `n` reports absent.  The records for
`n = 0` and `n = 1` are instead pre-seeded at initialization. -/
theorem C9_lazy_creation_amended (ops : List (ℕ × ℕ × TriBool)) (n k : ℕ)
    (hn : 2 ≤ n) (hops : ∀ op ∈ ops, op.2.1 ≠ n) :
    OA_cache_run ops OA_cache_init n = none ∧
    OA_cache_get k n (OA_cache_run ops OA_cache_init) = none := by
  have hinit : OA_cache_init n = none := by
    unfold OA_cache_init
    rw [if_neg]
    omega
  have h1 := OA_cache_run_not_touching ops OA_cache_init hinit hops
  exact ⟨h1, OA_cache_get_none h1⟩

/-- Witness for C9 (amended) at a concrete operation sequence avoiding
`n = 5`. -/
theorem C9_lazy_creation_amended_witness :
    OA_cache_run [(4, 10, TriBool.T)] OA_cache_init 5 = none ∧
    OA_cache_get 7 5 (OA_cache_run [(4, 10, TriBool.T)] OA_cache_init) = none :=
  C9_lazy_creation_amended [(4, 10, TriBool.T)] 5 7 (by decide) (by decide)


/-- Helper: a successful checked `finishCheck` returns its argument, and the
argument passed the validity check. -/
theorem finishCheck_fst_ok {OA : List (List ℕ)} {k n t : ℕ} {cache : OACache}
    {A : List (List ℕ)}
    (h : (finishCheck OA k n t true cache).1 = .ok (.arr A)) :
    A = OA ∧ is_orthogonal_array OA k n t = true := by
  unfold finishCheck at h
  by_cases hv : is_orthogonal_array OA k n t = false
  · rw [if_pos ⟨rfl, hv⟩] at h
    cases h
  · rw [if_neg (fun hc => hv hc.2)] at h
    refine ⟨?_, ?_⟩
    · injection h with h
      injection h with h
      exact h.symm
    · revert hv
      cases is_orthogonal_array OA k n t <;> simp

/-- C8.  For every `k < t` the call `orthogonal_array(k, n, t)` raises the
invalid-parameter failure (ValueError) in decision mode and in build mode
alike: the `k < t` guard precedes the existence-cache shortcut and every
construction strategy, and the cache is left untouched, so neither mode ever
returns a verdict or an array. -/
theorem C8_k_lt_t_invalid (env : OAEnv) (k n t : ℕ) (check existence : Bool)
    (cache : OACache) (h : k < t) :
    orthogonal_array env k n t check existence cache = (.error .valueError, cache) := by
  unfold orthogonal_array
  rw [if_pos h]

/-- Witness for C8 at `k = 1 < 3 = t`, in both modes. -/
theorem C8_k_lt_t_invalid_witness :
    (1 : ℕ) < 3 ∧
    orthogonal_array env_triv 1 5 3 true false OA_cache_init =
      (.error .valueError, OA_cache_init) ∧
    orthogonal_array env_triv 1 5 3 true true OA_cache_init =
      (.error .valueError, OA_cache_init) :=
  ⟨by decide, C8_k_lt_t_invalid env_triv 1 5 3 true false OA_cache_init (by decide),
    C8_k_lt_t_invalid env_triv 1 5 3 true true OA_cache_init (by decide)⟩

/-- C2.  For every `n > 1` and `k ≥ n + t`, the build request raises the
Nonexistence failure (EmptySetError), so no array is returned; and the
decision request returns False, provided the existence cache does not carry
a verdict contradicting this proven nonexistence at `(k, n)` -- the module's
own updates never store one there. -/
theorem C2_nonexistence (env : OAEnv) (k n t : ℕ) (check : Bool) (cache : OACache)
    (hn : 1 < n) (hk : n + t ≤ k)
    (hcache : ∀ v, OA_cache_get k n cache = some v → v = TriBool.F) :
    (orthogonal_array env k n t check false cache).1 = .error .emptySetError ∧
    (orthogonal_array env k n t check true cache).1 = .ok (.tri .F) := by
  constructor
  · unfold orthogonal_array
    rw [if_neg (by omega : ¬ k < t)]
    rw [if_neg (by simp : ¬ (false = true ∧ (OA_cache_get k n cache).isSome = true ∧ t = 2))]
    simp only
    rw [if_neg (by omega : ¬ n ≤ 1), if_pos hk]
    rfl
  · unfold orthogonal_array
    rw [if_neg (by omega : ¬ k < t)]
    by_cases hs : (true = true ∧ (OA_cache_get k n cache).isSome = true ∧ t = 2)
    · rw [if_pos hs]
      obtain ⟨-, hsome, -⟩ := hs
      cases hv : OA_cache_get k n cache with
      | some v =>
        have hF := hcache v hv
        subst hF
        rfl
      | none =>
        rw [hv] at hsome
        cases hsome
    · rw [if_neg hs]
      simp only
      rw [if_neg (by omega : ¬ n ≤ 1), if_pos hk]
      rfl

/-- Witness for C2 at `(k, n, t) = (4, 2, 2)` with the initial cache (which
has no record for `n = 2`). -/
theorem C2_nonexistence_witness :
    (1 : ℕ) < 2 ∧ 2 + 2 ≤ 4 ∧
    (orthogonal_array env_triv 4 2 2 true false OA_cache_init).1 = .error .emptySetError ∧
    (orthogonal_array env_triv 4 2 2 true true OA_cache_init).1 = .ok (.tri .F) := by
  have h := C2_nonexistence env_triv 4 2 2 true OA_cache_init (by decide) (by decide)
    (fun v hv => by rw [show OA_cache_get 4 2 OA_cache_init = none from rfl] at hv; cases hv)
  exact ⟨by decide, by decide, h.1, h.2⟩


/-- C4.  For `k ≤ t` (the validity guard forces `k ≥ t`, so `k = t`): a
successful build `orthogonal_array(k, n, t)` (default check) returns exactly
`n^k` rows, pairwise distinct, whose set is exactly the full set of tuples
`[0, n)^k`. -/
theorem C4_full_enumeration (env : OAEnv) (k n t : ℕ) (cache : OACache)
    (A : List (List ℕ)) (hkt : k ≤ t)
    (h : (orthogonal_array env k n t true false cache).1 = .ok (.arr A)) :
    A.length = n ^ k ∧ A.Nodup ∧ (∀ R, R ∈ A ↔ (R.length = k ∧ ∀ v ∈ R, v < n)) := by
  unfold orthogonal_array at h
  by_cases h1 : k < t
  · rw [if_pos h1] at h
    cases h
  rw [if_neg h1] at h
  have hkeq : k = t := by omega
  rw [if_neg (by simp : ¬ (false = true ∧ (OA_cache_get k n cache).isSome = true ∧ t = 2))] at h
  simp only at h
  by_cases h2 : n ≤ 1
  · rw [if_pos h2] at h
    rw [if_neg Bool.false_ne_true] at h
    obtain ⟨hA, hval⟩ := finishCheck_fst_ok h
    subst hA
    interval_cases n
    · have ht : 1 ≤ t := by
        by_contra hcon
        have ht0 : t = 0 := by omega
        subst ht0
        rw [is_orthogonal_array_iff] at hval
        simp at hval
      have hk1 : 1 ≤ k := by omega
      refine ⟨by rw [List.replicate, zero_pow (by omega : k ≠ 0)]; rfl, by simp, ?_⟩
      intro R
      constructor
      · intro hR
        simp at hR
      · rintro ⟨hlen, hmem⟩
        exfalso
        cases R with
        | nil =>
          rw [List.length_nil] at hlen
          omega
        | cons a R' => exact Nat.not_lt_zero a (hmem a (List.mem_cons_self a R'))
    · refine ⟨by simp, by simp, ?_⟩
      intro R
      rw [List.replicate_one, List.mem_singleton]
      constructor
      · intro hR
        subst hR
        refine ⟨List.length_replicate k 0, ?_⟩
        intro v hv
        rw [List.eq_of_mem_replicate hv]
        omega
      · rintro ⟨hlen, hmem⟩
        rw [List.eq_replicate_iff]
        refine ⟨hlen, ?_⟩
        intro b hb
        have := hmem b hb
        omega
  · rw [if_neg h2] at h
    rw [if_neg (by omega : ¬ n + t ≤ k)] at h
    rw [if_pos hkt] at h
    rw [if_neg Bool.false_ne_true] at h
    have hA : A = tuples n k := by
      simp only at h
      injection h with h
      injection h with h
      exact h.symm
    subst hA
    exact ⟨tuples_length n k, tuples_nodup n k, fun R =>
      ⟨fun hR => ⟨(mem_tuples.1 hR).1, (mem_tuples.1 hR).2⟩, fun hR => mem_tuples.2 hR⟩⟩

/-- Witness for C4 at `(k, n, t) = (2, 2, 2)`: the build returns the four
tuples of `[0, 2)^2`. -/
theorem C4_full_enumeration_witness :
    (2 : ℕ) ≤ 2 ∧
    (orthogonal_array env_triv 2 2 2 true false OA_cache_init).1 =
      .ok (.arr [[0, 0], [0, 1], [1, 0], [1, 1]]) ∧
    ([[0, 0], [0, 1], [1, 0], [1, 1]] : List (List ℕ)).length = 2 ^ 2 ∧
    ([[0, 0], [0, 1], [1, 0], [1, 1]] : List (List ℕ)).Nodup ∧
    (∀ R, R ∈ ([[0, 0], [0, 1], [1, 0], [1, 1]] : List (List ℕ)) ↔
      (R.length = 2 ∧ ∀ v ∈ R, v < 2)) := by
  have h := C4_full_enumeration env_triv 2 2 2 OA_cache_init [[0, 0], [0, 1], [1, 0], [1, 1]]
    (by decide) (by rfl)
  exact ⟨by decide, by rfl, h.1, h.2.1, h.2.2⟩

/-- Helper: a product count splits into the product of the factor counts. -/
theorem countP_flatMap_map_eq_one {α β γ : Type} (A : List α) (B : List β)
    (f : α → β → γ) (p : γ → Bool) (pa : α → Bool) (pb : β → Bool)
    (hsplit : ∀ a ∈ A, ∀ b ∈ B, p (f a b) = (pa a && pb b))
    (hA : A.countP pa = 1) (hB : B.countP pb = 1) :
    (A.flatMap (fun a => B.map (fun b => f a b))).countP p = 1 := by
  rw [countP_flatMap_sum]
  have h1 : A.map (fun a => ((B.map (fun b => f a b)).countP p)) =
      A.map (fun a => if pa a = true then 1 else 0) := by
    apply List.map_congr_left
    intro a ha
    rw [List.countP_map]
    by_cases hpa : pa a = true
    · rw [if_pos hpa, ← hB]
      apply List.countP_congr
      intro b hb
      rw [Function.comp_apply, hsplit a ha b hb, hpa]
      simp
    · rw [if_neg hpa, List.countP_eq_zero]
      intro b hb
      rw [Function.comp_apply, hsplit a ha b hb]
      rw [Bool.not_eq_true] at hpa
      rw [hpa]
      simp
  rw [h1, sum_map_ite_eq_countP, hA]

/-- Helper: the number of positions of `range n` holding a fixed `u < n` is
one. -/
theorem countP_range_eq_one {n u : ℕ} (hu : u < n) :
    (List.range n).countP (fun i => decide (i = u)) = 1 :=
  countP_eq_one_of_nodup_mem (List.nodup_range n) (List.mem_range.2 hu)

/-- Helper: the unique solution below `n` of `(u + j) % n = v`. -/
theorem add_mod_solution {n u v : ℕ} (hn : 0 < n) (hv : v < n) {j : ℕ} (hj : j < n) :
    ((u + j) % n = v) ↔ j = (n - u % n + v) % n := by
  have hum : u % n < n := Nat.mod_lt u hn
  have hw : (u + (n - u % n + v) % n) % n = v := by
    have e1 : (u + (n - u % n + v) % n) % n = (u + (n - u % n + v)) % n := by
      conv_lhs => rw [Nat.add_mod]
      rw [Nat.mod_mod, ← Nat.add_mod]
    obtain ⟨q, hq⟩ : ∃ q, n * (u / n) = q := ⟨_, rfl⟩
    have hdm := Nat.div_add_mod u n
    rw [hq] at hdm
    have e3 : u + (n - u % n + v) = q + (n + v) := by omega
    rw [e1, e3, ← hq, Nat.mul_add_mod, Nat.add_mod_left]
    exact Nat.mod_eq_of_lt hv
  have hwlt : (n - u % n + v) % n < n := Nat.mod_lt _ hn
  constructor
  · intro h
    have h1 : Nat.ModEq n (u + j) (u + (n - u % n + v) % n) := h.trans hw.symm
    have h2 : Nat.ModEq n j ((n - u % n + v) % n) := Nat.ModEq.add_left_cancel' u h1
    have h3 : j % n = ((n - u % n + v) % n) % n := h2
    rwa [Nat.mod_eq_of_lt hj, Nat.mod_eq_of_lt hwlt] at h3
  · intro h
    rw [h]
    exact hw

/-- The closed-form strength-2 array of the `k ≤ 3` branch,
`[[i, j, (i+j) % n] for i in range(n) for j in range(n)]`, is a valid
`OA(3, n, 2)`. -/
theorem is_orthogonal_array_mod_rows {n : ℕ} (hn : 0 < n) :
    is_orthogonal_array ((List.range n).flatMap (fun i =>
      (List.range n).map (fun j => [i, j, (i + j) % n]))) 3 n 2 = true := by
  rw [is_orthogonal_array_two_iff]
  refine ⟨?_, ?_, ?_⟩
  · rw [length_flatMap_sum]
    have h1 : ((List.range n).map fun i =>
        ((List.range n).map (fun j => [i, j, (i + j) % n])).length) =
        (List.range n).map (fun _ => n) := by
      apply List.map_congr_left
      intro i _
      rw [List.length_map, List.length_range]
    rw [h1, List.map_const', List.length_range, List.sum_const_nat]
    ring
  · intro R hR
    rw [List.mem_flatMap] at hR
    obtain ⟨i, hi, hR⟩ := hR
    rw [List.mem_map] at hR
    obtain ⟨j, hj, rfl⟩ := hR
    refine ⟨rfl, ?_⟩
    intro v hv
    rcases List.mem_cons.1 hv with h | h
    · subst h
      exact List.mem_range.1 hi
    rcases List.mem_cons.1 h with h1 | h1
    · subst h1
      exact List.mem_range.1 hj
    rcases List.mem_cons.1 h1 with h2 | h2
    · subst h2
      exact Nat.mod_lt _ hn
    · cases h2
  · intro i j u v hij hj3 hu hv
    have hi2 : i ≤ 1 := by omega
    have hj2 : j ≤ 2 := by omega
    interval_cases i <;> interval_cases j
    · -- columns 0 and 1
      apply countP_flatMap_map_eq_one (List.range n) (List.range n) _ _
        (fun a => decide (a = u)) (fun b => decide (b = v))
      · intro a _ b _
        simp [List.getD]
      · exact countP_range_eq_one hu
      · exact countP_range_eq_one hv
    · -- columns 0 and 2
      apply countP_flatMap_map_eq_one (List.range n) (List.range n) _ _
        (fun a => decide (a = u)) (fun b => decide (b = (n - u % n + v) % n))
      · intro a _ b hb
        have hb2 : b < n := List.mem_range.1 hb
        show (decide ([a, b, (a + b) % n].getD 0 0 = u) &&
            decide ([a, b, (a + b) % n].getD 2 0 = v)) =
          (decide (a = u) && decide (b = (n - u % n + v) % n))
        have hg0 : [a, b, (a + b) % n].getD 0 0 = a := rfl
        have hg2 : [a, b, (a + b) % n].getD 2 0 = (a + b) % n := rfl
        rw [hg0, hg2]
        by_cases hau : a = u
        · subst hau
          congr 1
          rw [decide_eq_decide]
          exact add_mod_solution hn hv hb2
        · have h1 : decide (a = u) = false := by simp [hau]
          rw [h1, Bool.false_and, Bool.false_and]
      · exact countP_range_eq_one hu
      · exact countP_range_eq_one (Nat.mod_lt _ hn)
    · -- columns 1 and 2
      apply countP_flatMap_map_eq_one (List.range n) (List.range n) _ _
        (fun a => decide (a = (n - u % n + v) % n)) (fun b => decide (b = u))
      · intro a ha b _
        have ha2 : a < n := List.mem_range.1 ha
        show (decide ([a, b, (a + b) % n].getD 1 0 = u) &&
            decide ([a, b, (a + b) % n].getD 2 0 = v)) =
          (decide (a = (n - u % n + v) % n) && decide (b = u))
        have hg1 : [a, b, (a + b) % n].getD 1 0 = b := rfl
        have hg2 : [a, b, (a + b) % n].getD 2 0 = (a + b) % n := rfl
        rw [hg1, hg2]
        by_cases hbu : b = u
        · subst hbu
          have h1 : decide (b = b) = true := by simp
          rw [h1, Bool.true_and, Bool.and_true]
          rw [decide_eq_decide]
          rw [Nat.add_comm]
          exact add_mod_solution hn hv ha2
        · have h1 : decide (b = u) = false := by simp [hbu]
          rw [h1, Bool.false_and, Bool.and_false]
      · exact countP_range_eq_one (Nat.mod_lt _ hn)
      · exact countP_range_eq_one hu

/-- Helper for C1: every array returned by the hard branch chain with the
check enabled has passed the validity check. -/
theorem oa_hard_valid {env : OAEnv} {k n : ℕ} {existence may : Bool} {cache : OACache}
    {A : List (List ℕ)}
    (h : (oa_hard env k n true existence may cache).1 = .ok (.arr A)) :
    is_orthogonal_array A k n 2 = true := by
  simp only [oa_hard] at h
  repeat' split at h
  all_goals
    first
      | cases h
      | (obtain ⟨hA, hval⟩ := finishCheck_fst_ok h; rw [hA]; exact hval)

/-- Build-mode soundness of the resolver: any array returned by a checked
build is a valid orthogonal array.  Every checked branch passes the
`is_orthogonal_array` assertion before returning, and the two branches that
return early (`k ≤ t` and `k ≤ 3`) return the full enumeration and the
closed-form strength-2 array, both proved valid directly. -/
theorem oa_build_valid (env : OAEnv) (k n t : ℕ) (cache : OACache)
    (A : List (List ℕ))
    (h : (orthogonal_array env k n t true false cache).1 = .ok (.arr A)) :
    is_orthogonal_array A k n t = true := by
  unfold orthogonal_array at h
  by_cases h1 : k < t
  · rw [if_pos h1] at h
    cases h
  rw [if_neg h1] at h
  rw [if_neg (by simp : ¬ (false = true ∧ (OA_cache_get k n cache).isSome = true ∧ t = 2))] at h
  simp only at h
  by_cases h2 : n ≤ 1
  · rw [if_pos h2, if_neg Bool.false_ne_true] at h
    obtain ⟨hA, hval⟩ := finishCheck_fst_ok h
    rw [hA]
    exact hval
  rw [if_neg h2] at h
  by_cases h3 : n + t ≤ k
  · rw [if_pos h3, if_neg Bool.false_ne_true] at h
    cases h
  rw [if_neg h3] at h
  by_cases h4 : k ≤ t
  · rw [if_pos h4, if_neg Bool.false_ne_true] at h
    have hA : A = tuples n k := by
      simp only at h
      injection h with h
      injection h with h
      exact h.symm
    have hkt : k = t := by omega
    subst hkt
    rw [hA]
    exact is_orthogonal_array_tuples n k
  rw [if_neg h4] at h
  by_cases h5 : t ≠ 2
  · rw [if_pos h5, if_neg Bool.false_ne_true] at h
    cases h
  rw [if_neg h5] at h
  push_neg at h5
  by_cases h6 : k ≤ 3
  · rw [if_pos h6, if_neg Bool.false_ne_true] at h
    have hA : A = (List.range n).flatMap (fun i =>
        (List.range n).map (fun j => [i, j, (i + j) % n])) := by
      simp only at h
      injection h with h
      injection h with h
      exact h.symm
    have hk3 : k = 3 := by omega
    subst h5
    subst hk3
    rw [hA]
    exact is_orthogonal_array_mod_rows (by omega)
  rw [if_neg h6] at h
  subst h5
  exact oa_hard_valid h

/-- C1.  Validity law: whenever a build request `orthogonal_array(k, n, t)`
with the check enabled returns an array, the returned array is a valid
`OA(k, n, t)` -- it has exactly `n^t` rows, every entry lies in `[0, n)`,
and every `t`-subset of columns shows every length-`t` tuple over `[0, n)`
exactly once. -/
theorem C1_build_returns_valid_OA (env : OAEnv) (k n t : ℕ) (cache : OACache)
    (A : List (List ℕ))
    (h : (orthogonal_array env k n t true false cache).1 = .ok (.arr A)) :
    is_orthogonal_array A k n t = true :=
  oa_build_valid env k n t cache A h

/-- Witness for C1 at the spec's own example `orthogonal_array(3, 2)`. -/
theorem C1_build_returns_valid_OA_witness :
    (orthogonal_array env_triv 3 2 2 true false OA_cache_init).1 =
      .ok (.arr [[0, 0, 0], [0, 1, 1], [1, 0, 1], [1, 1, 0]]) ∧
    is_orthogonal_array [[0, 0, 0], [0, 1, 1], [1, 0, 1], [1, 1, 0]] 3 2 2 = true :=
  ⟨by rfl, C1_build_returns_valid_OA env_triv 3 2 2 OA_cache_init _ (by rfl)⟩

/-- Helper: modular arithmetic identity behind the product construction. -/
theorem prod_mod (n1 n2 x1 x2 : ℕ) :
    (x1 * n2 + x2 % n2) % (n1 * n2) = (x1 % n1) * n2 + x2 % n2 := by
  rcases Nat.eq_zero_or_pos n1 with h1 | h1
  · subst h1
    simp [Nat.mod_zero]
  rcases Nat.eq_zero_or_pos n2 with h2 | h2
  · subst h2
    simp [Nat.mod_zero]
  have hb : x2 % n2 < n2 := Nat.mod_lt _ h2
  have hr : x1 % n1 < n1 := Nat.mod_lt _ h1
  obtain ⟨q, hq⟩ : ∃ q, x1 = n1 * q + x1 % n1 :=
    ⟨x1 / n1, by rw [Nat.div_add_mod]⟩
  have e1 : x1 * n2 + x2 % n2 = (n1 * n2) * q + ((x1 % n1) * n2 + x2 % n2) := by
    conv_lhs => rw [hq]
    ring
  rw [e1, Nat.mul_add_mod]
  apply Nat.mod_eq_of_lt
  calc (x1 % n1) * n2 + x2 % n2 < (x1 % n1) * n2 + n2 := Nat.add_lt_add_left hb _
    _ = (x1 % n1 + 1) * n2 := by ring
    _ ≤ n1 * n2 := Nat.mul_le_mul_right n2 hr

/-- Helper: reading position `i` of a zipWith through `getD`. -/
theorem getD_zipWith_of_lt {f : ℕ → ℕ → ℕ} {a b : List ℕ} {i : ℕ}
    (hia : i < a.length) (hib : i < b.length) :
    (List.zipWith f a b).getD i 0 = f (a.getD i 0) (b.getD i 0) := by
  have hz : i < (List.zipWith f a b).length := by
    rw [List.length_zipWith]
    omega
  rw [List.getD_eq_getElem _ _ hz, List.getD_eq_getElem _ _ hia,
    List.getD_eq_getElem _ _ hib]
  exact List.getElem_zipWith (h := hz)

/-- Helper: uniqueness of the base-`n2` decomposition. -/
theorem mul_add_eq_iff_div_mod {n2 u p q : ℕ} (hq : q < n2) :
    (p * n2 + q = u) ↔ (p = u / n2 ∧ q = u % n2) := by
  have hn2 : 0 < n2 := by omega
  constructor
  · rintro rfl
    constructor
    · rw [Nat.add_comm, Nat.add_mul_div_right _ _ hn2, Nat.div_eq_of_lt hq, Nat.zero_add]
    · rw [Nat.add_comm, Nat.add_mul_mod_self_right, Nat.mod_eq_of_lt hq]
  · rintro ⟨rfl, rfl⟩
    rw [Nat.add_comm, Nat.mul_comm, Nat.mod_add_div]

/-- The core product theorem: combining a valid `OA(k, n1, 2)` and a valid
`OA(k, n2, 2)` row by row as `p * n2 + q` yields a valid `OA(k, n1*n2, 2)`. -/
theorem OA_product_valid {A B : List (List ℕ)} {k n1 n2 : ℕ}
    (hA : is_orthogonal_array A k n1 2 = true)
    (hB : is_orthogonal_array B k n2 2 = true) :
    is_orthogonal_array (A.flatMap (fun a => B.map (fun b =>
      List.zipWith (fun p q => p * n2 + q) a b))) k (n1 * n2) 2 = true := by
  rw [is_orthogonal_array_two_iff] at hA hB ⊢
  obtain ⟨hAlen, hArows, hAcnt⟩ := hA
  obtain ⟨hBlen, hBrows, hBcnt⟩ := hB
  refine ⟨?_, ?_, ?_⟩
  · rw [length_flatMap_sum]
    have h1 : (A.map fun a => ((B.map (fun b =>
        List.zipWith (fun p q => p * n2 + q) a b)).length)) =
        A.map (fun _ => B.length) := by
      apply List.map_congr_left
      intro a _
      rw [List.length_map]
    rw [h1, List.map_const', List.sum_const_nat, hAlen, hBlen]
    ring
  · intro R hR
    rw [List.mem_flatMap] at hR
    obtain ⟨a, ha, hR⟩ := hR
    rw [List.mem_map] at hR
    obtain ⟨b, hb, rfl⟩ := hR
    have hal : a.length = k := (hArows a ha).1
    have hbl : b.length = k := (hBrows b hb).1
    refine ⟨by rw [List.length_zipWith, hal, hbl, Nat.min_self], ?_⟩
    intro v hv
    rw [List.mem_iff_getElem] at hv
    obtain ⟨i, hi, rfl⟩ := hv
    have hia : i < a.length := by
      rw [List.length_zipWith] at hi
      omega
    have hib : i < b.length := by
      rw [List.length_zipWith] at hi
      omega
    rw [List.getElem_zipWith]
    have h1 : a[i] < n1 := (hArows a ha).2 _ (List.getElem_mem hia)
    have h2 : b[i] < n2 := (hBrows b hb).2 _ (List.getElem_mem hib)
    calc a[i] * n2 + b[i] < a[i] * n2 + n2 := Nat.add_lt_add_left h2 _
      _ = (a[i] + 1) * n2 := by ring
      _ ≤ n1 * n2 := Nat.mul_le_mul_right n2 h1
  · intro i j u v hij hjk hu hv
    have hn2 : 0 < n2 := by
      rcases Nat.eq_zero_or_pos n2 with h | h
      · subst h
        omega
      · exact h
    have hn1 : 0 < n1 := by
      rcases Nat.eq_zero_or_pos n1 with h | h
      · subst h
        simp at hu
      · exact h
    have hud : u / n2 < n1 := (Nat.div_lt_iff_lt_mul hn2).2 hu
    have hvd : v / n2 < n1 := (Nat.div_lt_iff_lt_mul hn2).2 hv
    apply countP_flatMap_map_eq_one A B _ _
      (fun a => decide (a.getD i 0 = u / n2) && decide (a.getD j 0 = v / n2))
      (fun b => decide (b.getD i 0 = u % n2) && decide (b.getD j 0 = v % n2))
    · intro a ha b hb
      have hal : a.length = k := (hArows a ha).1
      have hbl : b.length = k := (hBrows b hb).1
      have hia : i < a.length := by omega
      have hja : j < a.length := by omega
      have hib : i < b.length := by omega
      have hjb : j < b.length := by omega
      show (decide ((List.zipWith (fun p q => p * n2 + q) a b).getD i 0 = u) &&
          decide ((List.zipWith (fun p q => p * n2 + q) a b).getD j 0 = v)) = _
      rw [getD_zipWith_of_lt hia hib, getD_zipWith_of_lt hja hjb]
      have hbi : b.getD i 0 < n2 := by
        rw [List.getD_eq_getElem _ _ hib]
        exact (hBrows b hb).2 _ (List.getElem_mem hib)
      have hbj : b.getD j 0 < n2 := by
        rw [List.getD_eq_getElem _ _ hjb]
        exact (hBrows b hb).2 _ (List.getElem_mem hjb)
      have e1 : decide (a.getD i 0 * n2 + b.getD i 0 = u) =
          (decide (a.getD i 0 = u / n2) && decide (b.getD i 0 = u % n2)) := by
        rw [show (decide (a.getD i 0 = u / n2) && decide (b.getD i 0 = u % n2)) =
          decide (a.getD i 0 = u / n2 ∧ b.getD i 0 = u % n2) from (Bool.decide_and _ _).symm]
        rw [decide_eq_decide]
        exact mul_add_eq_iff_div_mod hbi
      have e2 : decide (a.getD j 0 * n2 + b.getD j 0 = v) =
          (decide (a.getD j 0 = v / n2) && decide (b.getD j 0 = v % n2)) := by
        rw [show (decide (a.getD j 0 = v / n2) && decide (b.getD j 0 = v % n2)) =
          decide (a.getD j 0 = v / n2 ∧ b.getD j 0 = v % n2) from (Bool.decide_and _ _).symm]
        rw [decide_eq_decide]
        exact mul_add_eq_iff_div_mod hbj
      rw [e1, e2]
      cases decide (a.getD i 0 = u / n2) <;> cases decide (a.getD j 0 = v / n2) <;>
        cases decide (b.getD i 0 = u % n2) <;> cases decide (b.getD j 0 = v % n2) <;> rfl
    · exact hAcnt i j (u / n2) (v / n2) hij hjk hud hvd
    · exact hBcnt i j (u % n2) (v % n2) hij hjk (Nat.mod_lt _ hn2) (Nat.mod_lt _ hn2)

/-- Helper: reducing the product blocks entrywise modulo `n1 * n2` gives the
product of the reduced factors. -/
theorem TD_product_blocks_mod (TD1 TD2 : List (List ℕ)) (n1 n2 : ℕ) :
    (TD_product_blocks TD1 TD2 n2).map (fun R => R.map (fun x => x % (n1 * n2))) =
    (TD1.map (fun R => R.map (fun x => x % n1))).flatMap (fun a =>
      (TD2.map (fun R => R.map (fun x => x % n2))).map (fun b =>
        List.zipWith (fun p q => p * n2 + q) a b)) := by
  unfold TD_product_blocks
  rw [List.map_flatMap, List.flatMap_map]
  congr 1
  funext X1
  rw [List.map_map, List.map_map]
  congr 1
  funext X2
  simp only [Function.comp_apply]
  rw [List.map_zipWith, List.zipWith_map]
  have e : (fun x y => (x * n2 + y % n2) % (n1 * n2)) =
      (fun x y => (x % n1) * n2 + y % n2) := by
    funext x y
    exact prod_mod n1 n2 x y
  rw [e]

/-- C3.  For every `k` and every pair of valid transversal designs
`TD(k, n1)` and `TD(k, n2)` over the canonical ground sets, `TD_product`
returns (with its check enabled) exactly the blocks obtained by pairing every
block of `TD1` with every block of `TD2`, combining coordinate `i` as
`x1_i * n2 + (x2_i % n2)`, and that block list is a valid `TD(k, n1 * n2)`.
In particular the product of a valid `TD(k, 7)` and a valid `TD(k, 12)` is a
valid `TD(k, 84)`. -/
theorem C3_TD_product_valid (k : ℕ) (TD1 : List (List ℕ)) (n1 : ℕ)
    (TD2 : List (List ℕ)) (n2 : ℕ)
    (h1 : is_transversal_design TD1 k n1 = true)
    (h2 : is_transversal_design TD2 k n2 = true) :
    is_transversal_design (TD_product_blocks TD1 TD2 n2) k (n1 * n2) = true ∧
    TD_product k TD1 n1 TD2 n2 true = .ok (TD_product_blocks TD1 TD2 n2) := by
  have hval : is_transversal_design (TD_product_blocks TD1 TD2 n2) k (n1 * n2) = true := by
    unfold is_transversal_design at h1 h2 ⊢
    rw [TD_product_blocks_mod TD1 TD2 n1 n2]
    exact OA_product_valid h1 h2
  refine ⟨hval, ?_⟩
  unfold TD_product
  rw [if_neg]
  rintro ⟨-, hc⟩
  rw [hval] at hc
  cases hc

/-- Witness for C3: the product of the canonical `TD(2, 2)` and `TD(2, 3)`
is a valid `TD(2, 6)`. -/
theorem C3_TD_product_valid_witness :
    is_transversal_design [[0, 2], [0, 3], [1, 2], [1, 3]] 2 2 = true ∧
    is_transversal_design [[0, 3], [0, 4], [0, 5], [1, 3], [1, 4], [1, 5],
      [2, 3], [2, 4], [2, 5]] 2 3 = true ∧
    is_transversal_design (TD_product_blocks [[0, 2], [0, 3], [1, 2], [1, 3]]
      [[0, 3], [0, 4], [0, 5], [1, 3], [1, 4], [1, 5], [2, 3], [2, 4], [2, 5]] 3) 2 (2 * 3)
      = true ∧
    TD_product 2 [[0, 2], [0, 3], [1, 2], [1, 3]] 2
      [[0, 3], [0, 4], [0, 5], [1, 3], [1, 4], [1, 5], [2, 3], [2, 4], [2, 5]] 3 true =
      .ok (TD_product_blocks [[0, 2], [0, 3], [1, 2], [1, 3]]
        [[0, 3], [0, 4], [0, 5], [1, 3], [1, 4], [1, 5], [2, 3], [2, 4], [2, 5]] 3) := by
  have h := C3_TD_product_valid 2 [[0, 2], [0, 3], [1, 2], [1, 3]] 2
    [[0, 3], [0, 4], [0, 5], [1, 3], [1, 4], [1, 5], [2, 3], [2, 4], [2, 5]] 3
    (by decide) (by decide)
  exact ⟨by decide, by decide, h.1, h.2⟩

/-- Helper: pointwise sums of maps add. -/
theorem sum_map_add_nat {α : Type} (l : List α) (g h : α → ℕ) :
    (l.map (fun a => g a + h a)).sum = (l.map g).sum + (l.map h).sum := by
  induction l with
  | nil => rfl
  | cons a l ih =>
    simp only [List.map_cons, List.sum_cons, ih]
    omega

/-- Helper: sums of maps are monotone. -/
theorem sum_map_le_sum_map {α : Type} (l : List α) (g h : α → ℕ)
    (hle : ∀ a ∈ l, g a ≤ h a) :
    (l.map g).sum ≤ (l.map h).sum := by
  induction l with
  | nil => exact Nat.le_refl 0
  | cons a l ih =>
    simp only [List.map_cons, List.sum_cons]
    have h1 := hle a (List.mem_cons_self a l)
    have h2 := ih (fun b hb => hle b (List.mem_cons_of_mem a hb))
    omega

/-- Helper: two distinct positions satisfying a predicate force a count of at
least two. -/
theorem two_le_countP {α : Type} {l : List α} {p : α → Bool} {j1 j2 : ℕ}
    (h12 : j1 < j2) (h2 : j2 < l.length) (hp1 : p l[j1] = true) (hp2 : p l[j2] = true) :
    2 ≤ l.countP p := by
  have h1 : j1 < l.length := by omega
  have hsplit : l = l.take j2 ++ l.drop j2 := (List.take_append_drop j2 l).symm
  have hdrop : l.drop j2 = l[j2] :: l.drop (j2 + 1) := List.drop_eq_getElem_cons h2
  have hc : l.countP p = (l.take j2).countP p + (l.drop j2).countP p := by
    conv_lhs => rw [hsplit]
    rw [List.countP_append]
  have htake : 1 ≤ (l.take j2).countP p := by
    have hj1' : j1 < (l.take j2).length := by
      rw [List.length_take]
      omega
    have hmem : l[j1] ∈ l.take j2 := by
      have : (l.take j2)[j1] = l[j1] := List.getElem_take l
      rw [← this]
      exact List.getElem_mem hj1'
    have := List.countP_pos_iff.2 ⟨l[j1], hmem, hp1⟩
    omega
  have hdropc : 1 ≤ (l.drop j2).countP p := by
    rw [hdrop, List.countP_cons_of_pos _ _ hp2]
    omega
  omega

/-- Helper: a count partitioned by the (bounded) value of a function. -/
theorem countP_eq_sum_split {α : Type} (l : List α) (p : α → Bool) (f : α → ℕ) (n : ℕ)
    (hf : ∀ a ∈ l, p a = true → f a < n) :
    l.countP p = ((List.range n).map (fun j =>
      l.countP (fun a => p a && decide (f a = j)))).sum := by
  induction l with
  | nil =>
    have h1 : ((List.range n).map (fun j =>
        List.countP (fun a => p a && decide (f a = j)) [])) =
        (List.range n).map (fun _ => 0) := by
      apply List.map_congr_left
      intro j _
      rfl
    rw [List.countP_nil, h1, List.map_const', List.sum_const_nat]
    omega
  | cons a l ih =>
    rw [List.countP_cons]
    rw [ih (fun b hb hp => hf b (List.mem_cons_of_mem a hb) hp)]
    have e1 : ((List.range n).map (fun j =>
        (a :: l).countP (fun a' => p a' && decide (f a' = j)))) =
        ((List.range n).map (fun j =>
          l.countP (fun a' => p a' && decide (f a' = j)) +
            (if (p a && decide (f a = j)) = true then 1 else 0))) := by
      apply List.map_congr_left
      intro j _
      rw [List.countP_cons]
    rw [e1, sum_map_add_nat]
    have e2 : ((List.range n).map (fun j =>
        if (p a && decide (f a = j)) = true then 1 else 0)).sum =
        (if p a = true then 1 else 0) := by
      rw [sum_map_ite_eq_countP]
      by_cases hp : p a = true
      · rw [if_pos hp]
        have e3 : (List.range n).countP (fun j => p a && decide (f a = j)) =
            (List.range n).countP (fun j => decide (j = f a)) := by
          apply List.countP_congr
          intro j _
          simp only [hp, Bool.true_and, decide_eq_true_eq]
          exact eq_comm
        rw [e3]
        exact countP_range_eq_one (hf a (List.mem_cons_self a l) hp)
      · rw [if_neg hp]
        rw [List.countP_eq_zero]
        intro j _
        rw [Bool.not_eq_true] at hp
        rw [hp, Bool.false_and]
        exact Bool.false_ne_true
    rw [e2]

/-- Unfolding of the integer-program constraint system. -/
theorem disjoint_feasible_iff {OA : List (List ℕ)} {k n x : ℕ} {b : List Bool} :
    disjoint_feasible OA k n x b = true ↔
      b.length = OA.length ∧
      (List.range OA.length).countP (fun c => b.getD c false) = x ∧
      (∀ i < k, ∀ j < n,
        (List.range OA.length).countP
          (fun c => b.getD c false && decide ((OA.getD c []).getD i 0 = j)) ≤ 1) := by
  unfold disjoint_feasible
  simp only [Bool.and_eq_true, List.all_eq_true, decide_eq_true_eq, List.mem_range,
    and_assoc]

/-- Disjoint-block extraction: for a valid `OA(k, n)` (with at least one
column) and a sound integer-program solver, a successful call returns exactly
`x` rows of the input with pairwise distinct symbols in every column, and for
`x > n` the program is infeasible, so the call fails with ValueError. -/
theorem find_disjoint_spec (solver : List (List ℕ) → ℕ → ℕ → ℕ → Option (List Bool))
    (OA : List (List ℕ)) (k n x : ℕ)
    (hsolver : SolverSound solver)
    (hOA : is_orthogonal_array OA k n 2 = true) (hk : 1 ≤ k) :
    (x ≤ n → ∀ S, OA_find_disjoint_blocks solver OA k n x = .ok S →
      S.length = x ∧ (∀ B ∈ S, B ∈ OA) ∧
      (∀ i, i < k → (S.map (fun B => B.getD i 0)).Nodup)) ∧
    (n < x → OA_find_disjoint_blocks solver OA k n x = .error .valueError) := by
  have hrows := (is_orthogonal_array_iff.1 hOA).2.1
  constructor
  · intro _ S hS
    unfold OA_find_disjoint_blocks at hS
    cases hsol : solver OA k n x with
    | none =>
      rw [hsol] at hS
      cases hS
    | some b =>
      rw [hsol] at hS
      injection hS with hS
      have hfeas := disjoint_feasible_iff.1 (hsolver OA k n x b hsol)
      obtain ⟨hblen, hcount, hpack⟩ := hfeas
      subst hS
      refine ⟨?_, ?_, ?_⟩
      · unfold disjoint_select
        rw [List.length_map, ← List.countP_eq_length_filter]
        exact hcount
      · intro B hB
        unfold disjoint_select at hB
        rw [List.mem_map] at hB
        obtain ⟨c, hc, rfl⟩ := hB
        have hcN : c < OA.length := List.mem_range.1 ((List.mem_filter.1 hc).1)
        rw [List.getD_eq_getElem _ _ hcN]
        exact List.getElem_mem hcN
      · intro i hik
        unfold disjoint_select
        rw [List.map_map]
        have hpair : ((List.range OA.length).filter
            (fun c => b.getD c false)).Pairwise (· < ·) :=
          List.Pairwise.filter _ (List.pairwise_lt_range OA.length)
        have hpair2 : ((List.range OA.length).filter (fun c => b.getD c false)).Pairwise
            (fun c1 c2 => ((fun c => (OA.getD c []).getD i 0) c1) ≠
              ((fun c => (OA.getD c []).getD i 0) c2)) := by
          apply List.Pairwise.imp_of_mem ?_ hpair
          intro c1 c2 hc1 hc2 hlt heq
          have hs1 : b.getD c1 false = true := (List.mem_filter.1 hc1).2
          have hs2 : b.getD c2 false = true := (List.mem_filter.1 hc2).2
          have hc1N : c1 < OA.length := List.mem_range.1 ((List.mem_filter.1 hc1).1)
          have hc2N : c2 < OA.length := List.mem_range.1 ((List.mem_filter.1 hc2).1)
          set j := (OA.getD c1 []).getD i 0 with hj
          have hjn : j < n := by
            rw [hj, List.getD_eq_getElem _ _ hc1N]
            have hr := hrows OA[c1] (List.getElem_mem hc1N)
            have hil : i < OA[c1].length := by
              rw [hr.1]
              omega
            rw [List.getD_eq_getElem _ _ hil]
            exact hr.2 _ (List.getElem_mem hil)
          have h2c := @two_le_countP ℕ (List.range OA.length)
            (fun c => b.getD c false && decide ((OA.getD c []).getD i 0 = j))
            c1 c2 hlt (by rw [List.length_range]; exact hc2N) ?_ ?_
          · have := hpack i hik j hjn
            omega
          · simp only [List.getElem_range, hs1, Bool.true_and, decide_eq_true_eq]
          · simp only [List.getElem_range, hs2, Bool.true_and, decide_eq_true_eq]
            exact heq.symm.trans hj.symm
        exact List.Pairwise.map _ (fun a b h => h) hpair2
  · intro hnx
    unfold OA_find_disjoint_blocks
    cases hsol : solver OA k n x with
    | none => rfl
    | some b =>
      exfalso
      have hfeas := disjoint_feasible_iff.1 (hsolver OA k n x b hsol)
      obtain ⟨hblen, hcount, hpack⟩ := hfeas
      have hsplit := countP_eq_sum_split (List.range OA.length)
        (fun c => b.getD c false) (fun c => (OA.getD c []).getD 0 0) n ?_
      · have hbound : (((List.range n).map (fun j => (List.range OA.length).countP
            (fun c => b.getD c false && decide ((OA.getD c []).getD 0 0 = j)))).sum) ≤ n := by
          have h1 := sum_map_le_sum_map (List.range n)
            (fun j => (List.range OA.length).countP
              (fun c => b.getD c false && decide ((OA.getD c []).getD 0 0 = j)))
            (fun _ => 1)
            (fun j hj => hpack 0 hk j (List.mem_range.1 hj))
          rw [List.map_const', List.sum_const_nat, List.length_range] at h1
          omega
        rw [hcount] at hsplit
        omega
      · intro c hc hp
        have hcN : c < OA.length := List.mem_range.1 hc
        show (OA.getD c []).getD 0 0 < n
        rw [List.getD_eq_getElem _ _ hcN]
        have hr := hrows OA[c] (List.getElem_mem hcN)
        have hil : 0 < OA[c].length := by
          rw [hr.1]
          omega
        rw [List.getD_eq_getElem _ _ hil]
        exact hr.2 _ (List.getElem_mem hil)

/-- C7.  For a valid `OA(k, n)` (with at least one column) and a sound
integer-program solver: a successful `OA_find_disjoint_blocks(OA, k, n, x)`
with `x ≤ n` returns exactly `x` rows of the input such that in every column
the returned rows carry pairwise distinct symbols; and for `x > n` the
program is infeasible, so the call fails with the no-disjoint-set failure
(ValueError). -/
theorem C7_disjoint_blocks (solver : List (List ℕ) → ℕ → ℕ → ℕ → Option (List Bool))
    (OA : List (List ℕ)) (k n x : ℕ)
    (hsolver : SolverSound solver)
    (hOA : is_orthogonal_array OA k n 2 = true) (hk : 1 ≤ k) :
    (x ≤ n → ∀ S, OA_find_disjoint_blocks solver OA k n x = .ok S →
      S.length = x ∧ (∀ B ∈ S, B ∈ OA) ∧
      (∀ i, i < k → (S.map (fun B => B.getD i 0)).Nodup)) ∧
    (n < x → OA_find_disjoint_blocks solver OA k n x = .error .valueError) :=
  find_disjoint_spec solver OA k n x hsolver hOA hk

/-- Soundness of the concrete candidate-checking solver used in the witness. -/
theorem w7solver_sound : SolverSound w7solver := by
  intro OA k n x b h
  simp only [w7solver] at h
  by_cases hfeas : disjoint_feasible OA k n x [true, false, false, true] = true
  · rw [if_pos hfeas] at h
    injection h with h
    rw [← h]
    exact hfeas
  · rw [if_neg hfeas] at h
    cases h

theorem C7_disjoint_blocks_witness :
    SolverSound w7solver ∧ is_orthogonal_array (tuples 2 2) 2 2 2 = true ∧
    ((2 ≤ 2 → ∀ S, OA_find_disjoint_blocks w7solver (tuples 2 2) 2 2 2 = .ok S →
      S.length = 2 ∧ (∀ B ∈ S, B ∈ tuples 2 2) ∧
      (∀ i, i < 2 → (S.map (fun B => B.getD i 0)).Nodup)) ∧
    (2 < 2 → OA_find_disjoint_blocks w7solver (tuples 2 2) 2 2 2 = .error .valueError)) :=
  ⟨w7solver_sound, by decide,
    C7_disjoint_blocks w7solver (tuples 2 2) 2 2 2 w7solver_sound (by decide) (by decide)⟩

/-- Helper: a list with at most one element has no duplicates. -/
theorem nodup_of_length_le_one {α : Type} {l : List α} (h : l.length ≤ 1) : l.Nodup := by
  match l, h with
  | [], _ => exact List.nodup_nil
  | [a], _ => exact List.nodup_singleton a

/-- Helper: the sum of `x` holes of size 1. -/
theorem sum_replicate_one (x : ℕ) : (List.replicate x 1).sum = x := by
  induction x with
  | zero => rfl
  | succ x ih =>
    rw [List.replicate_succ, List.sum_cons, ih]
    omega

/-- Helper: reading an entry of an enumerate-and-map row. -/
theorem getD_enum_map (R : List ℕ) (f : ℕ × ℕ → ℕ) (i : ℕ) (h : i < R.length) :
    (R.enum.map f).getD i 0 = f (i, R[i]) := by
  have hl : i < (R.enum.map f).length := by
    rw [List.length_map, List.enum_length]
    exact h
  rw [List.getD_eq_getElem _ _ hl, List.getElem_map, List.getElem_enum]

/-- Helper: the length of an enumerate-and-map row. -/
theorem length_enum_map {α β : Type} (R : List α) (f : ℕ × α → β) :
    (R.enum.map f).length = R.length := by
  rw [List.length_map, List.enum_length]

/-- The members of `range n` lying in a duplicate-free list of values below
`n` are a permutation of that list. -/
theorem filter_mem_perm {n : ℕ} {col : List ℕ} (hnd : col.Nodup)
    (hlt : ∀ v ∈ col, v < n) :
    ((List.range n).filter (fun y => decide (y ∈ col))).Perm col := by
  rw [List.perm_ext_iff_of_nodup (List.Nodup.filter _ (List.nodup_range n)) hnd]
  intro a
  rw [List.mem_filter, List.mem_range]
  simp only [decide_eq_true_eq]
  exact ⟨fun h => h.2, fun h => ⟨hlt a h, h⟩⟩

/-- The non-member prefix of the relabelling key list has length `n - x`. -/
theorem relabel_keys_filter_length {n x : ℕ} {col : List ℕ} (hnd : col.Nodup)
    (hlen : col.length = x) (hlt : ∀ v ∈ col, v < n) :
    ((List.range n).filter (fun y => decide (y ∉ col))).length = n - x := by
  have hsplit := List.length_eq_countP_add_countP (fun y => decide (y ∈ col)) (List.range n)
  rw [List.length_range] at hsplit
  have hmem : (List.range n).countP (fun y => decide (y ∈ col)) = x := by
    rw [List.countP_eq_length_filter, (filter_mem_perm hnd hlt).length_eq, hlen]
  have hcongr : (List.range n).countP (fun y => ¬(fun y => decide (y ∈ col)) y) =
      (List.range n).countP (fun y => decide (y ∉ col)) := by
    apply List.countP_congr
    intro y _
    simp
  rw [hmem, hcongr] at hsplit
  rw [← List.countP_eq_length_filter]
  omega

/-- The relabelling key list has length `n`. -/
theorem relabel_keys_length {n x : ℕ} {col : List ℕ} (hnd : col.Nodup)
    (hlen : col.length = x) (hlt : ∀ v ∈ col, v < n) :
    (relabel_keys n col).length = n := by
  have hx : x ≤ n := by
    have := (filter_mem_perm hnd hlt).length_eq
    rw [hlen] at this
    have h2 := List.length_filter_le (fun y => decide (y ∈ col)) (List.range n)
    rw [this, List.length_range] at h2
    exact h2
  unfold relabel_keys
  rw [List.length_append, relabel_keys_filter_length hnd hlen hlt, hlen]
  omega

/-- The relabelling key list has no duplicates. -/
theorem relabel_keys_nodup {n : ℕ} {col : List ℕ} (hnd : col.Nodup) :
    (relabel_keys n col).Nodup := by
  unfold relabel_keys
  apply List.Nodup.append (List.Nodup.filter _ (List.nodup_range n)) hnd
  intro a ha hcol
  have := List.mem_filter.1 ha
  simp only [decide_eq_true_eq] at this
  exact this.2 hcol

/-- Every symbol below `n` occurs in the relabelling key list. -/
theorem mem_relabel_keys {n : ℕ} {col : List ℕ} {v : ℕ} (hv : v < n) :
    v ∈ relabel_keys n col := by
  unfold relabel_keys
  rw [List.mem_append]
  by_cases hc : v ∈ col
  · exact Or.inr hc
  · refine Or.inl ?_
    rw [List.mem_filter, List.mem_range]
    exact ⟨hv, by simpa using hc⟩

/-- Every member of the relabelling key list is a symbol below `n`. -/
theorem relabel_keys_mem_lt {n : ℕ} {col : List ℕ} {v : ℕ}
    (hlt : ∀ w ∈ col, w < n) (hv : v ∈ relabel_keys n col) : v < n := by
  unfold relabel_keys at hv
  rcases List.mem_append.1 hv with h | h
  · exact List.mem_range.1 (List.mem_filter.1 h).1
  · exact hlt v h

/-- The relabelling dictionary sends each symbol below `n` to a symbol
below `n`. -/
theorem relabel_keys_indexOf_lt {n x : ℕ} {col : List ℕ} (hnd : col.Nodup)
    (hlen : col.length = x) (hlt : ∀ w ∈ col, w < n) {v : ℕ} (hv : v < n) :
    (relabel_keys n col).indexOf v < n := by
  have := List.indexOf_lt_length.2 (@mem_relabel_keys n col v hv)
  rwa [relabel_keys_length hnd hlen hlt] at this

/-- The relabelling dictionary is injective on symbols below `n`. -/
theorem relabel_keys_indexOf_inj {n : ℕ} {col : List ℕ} {u v : ℕ}
    (hu : u < n) (hv : v < n)
    (h : (relabel_keys n col).indexOf u = (relabel_keys n col).indexOf v) : u = v := by
  have hu' := List.indexOf_lt_length.2 (@mem_relabel_keys n col u hu)
  have hv' := List.indexOf_lt_length.2 (@mem_relabel_keys n col v hv)
  have e1 : (relabel_keys n col)[(relabel_keys n col).indexOf u] = u :=
    List.getElem_indexOf hu'
  have e2 : (relabel_keys n col)[(relabel_keys n col).indexOf v] = v :=
    List.getElem_indexOf hv'
  rw [← e1, ← e2]
  congr 1

/-- The relabelling dictionary is surjective onto symbols below `n`. -/
theorem relabel_keys_indexOf_surj {n x : ℕ} {col : List ℕ} (hnd : col.Nodup)
    (hlen : col.length = x) (hlt : ∀ w ∈ col, w < n) {u : ℕ} (hu : u < n) :
    ∃ v, v < n ∧ (relabel_keys n col).indexOf v = u := by
  have hlen' : (relabel_keys n col).length = n := relabel_keys_length hnd hlen hlt
  have hu' : u < (relabel_keys n col).length := by omega
  refine ⟨(relabel_keys n col)[u], ?_, ?_⟩
  · exact relabel_keys_mem_lt hlt (List.getElem_mem hu')
  · exact List.indexOf_getElem (relabel_keys_nodup hnd) u hu'

/-- The relabelling dictionary sends the `j`-th anchor value to `(n - x) + j`. -/
theorem relabel_keys_indexOf_anchor {n x : ℕ} {col : List ℕ} (hnd : col.Nodup)
    (hlen : col.length = x) (hlt : ∀ w ∈ col, w < n) {j : ℕ} (hj : j < col.length) :
    (relabel_keys n col).indexOf col[j] = (n - x) + j := by
  unfold relabel_keys
  have hnm : col[j] ∉ (List.range n).filter (fun y => decide (y ∉ col)) := by
    intro hmem
    have := List.mem_filter.1 hmem
    simp only [decide_eq_true_eq] at this
    exact this.2 (List.getElem_mem hj)
  rw [List.indexOf_append_of_not_mem hnm, relabel_keys_filter_length hnd hlen hlt,
    List.indexOf_getElem hnd j hj]

/-- A per-column bijective relabelling of the symbols preserves validity of a
strength-2 orthogonal array. -/
theorem relabel_map_valid {OA : List (List ℕ)} {k n : ℕ} (σ : ℕ → ℕ → ℕ)
    (hOA : is_orthogonal_array OA k n 2 = true)
    (hlt : ∀ i, i < k → ∀ v, v < n → σ i v < n)
    (hinj : ∀ i, i < k → ∀ u v, u < n → v < n → σ i u = σ i v → u = v)
    (hsurj : ∀ i, i < k → ∀ u, u < n → ∃ v, v < n ∧ σ i v = u) :
    is_orthogonal_array (OA.map (fun R => R.enum.map (fun p => σ p.1 p.2))) k n 2 = true := by
  obtain ⟨h1, h2, h3⟩ := is_orthogonal_array_two_iff.1 hOA
  rw [is_orthogonal_array_two_iff]
  refine ⟨by rw [List.length_map]; exact h1, ?_, ?_⟩
  · intro Q hQ
    rw [List.mem_map] at hQ
    obtain ⟨R, hR, rfl⟩ := hQ
    obtain ⟨hRlen, hRmem⟩ := h2 R hR
    refine ⟨by rw [length_enum_map, hRlen], ?_⟩
    intro v hv
    rw [List.mem_iff_getElem] at hv
    obtain ⟨i, hi, rfl⟩ := hv
    have hi' : i < R.length := by
      rw [length_enum_map] at hi
      exact hi
    have he : (R.enum.map (fun p => σ p.1 p.2))[i] = σ i R[i] := by
      rw [List.getElem_map, List.getElem_enum]
    rw [he]
    exact hlt i (by omega) R[i] (hRmem _ (List.getElem_mem hi'))
  · intro i j u v hij hjk u_lt v_lt
    obtain ⟨u0, hu0n, hu0⟩ := hsurj i (by omega) u u_lt
    obtain ⟨v0, hv0n, hv0⟩ := hsurj j hjk v v_lt
    rw [List.countP_map]
    have hcong : ∀ R ∈ OA,
        (((fun Q : List ℕ => decide (Q.getD i 0 = u) && decide (Q.getD j 0 = v)) ∘
          (fun R : List ℕ => R.enum.map (fun p => σ p.1 p.2))) R = true) ↔
        ((fun R : List ℕ => decide (R.getD i 0 = u0) && decide (R.getD j 0 = v0)) R = true) := by
      intro R hR
      obtain ⟨hRlen, hRmem⟩ := h2 R hR
      have hi' : i < R.length := by omega
      have hj' : j < R.length := by omega
      simp only [Function.comp_apply, Bool.and_eq_true, decide_eq_true_eq]
      rw [getD_enum_map R _ i hi', getD_enum_map R _ j hj']
      rw [List.getD_eq_getElem _ _ hi', List.getD_eq_getElem _ _ hj']
      have hRi : R[i] < n := hRmem _ (List.getElem_mem hi')
      have hRj : R[j] < n := hRmem _ (List.getElem_mem hj')
      constructor
      · rintro ⟨e1, e2⟩
        exact ⟨hinj i (by omega) R[i] u0 hRi hu0n (by rw [e1, hu0]),
          hinj j hjk R[j] v0 hRj hv0n (by rw [e2, hv0])⟩
      · rintro ⟨e1, e2⟩
        rw [e1, e2, hu0, hv0]
        exact ⟨rfl, rfl⟩
    rw [List.countP_congr hcong]
    exact h3 i j u0 v0 hij hjk hu0n hv0n

/-- Folding `min` over blocks of the common length `k` starting at `k`
returns `k`. -/
theorem foldl_min_const {k : ℕ} : ∀ {l : List (List ℕ)}, (∀ C ∈ l, C.length = k) →
    l.foldl (fun m C => min m C.length) k = k := by
  intro l
  induction l with
  | nil => intro _; rfl
  | cons C rest ih =>
    intro h
    rw [List.foldl_cons, h C (List.mem_cons_self C rest), min_self]
    exact ih (fun D hD => h D (List.mem_cons_of_mem C hD))

/-- `zip(*blocks)` on a nonempty list of blocks of common length `k` yields
the `k` columns. -/
theorem zip_star_eq {IS : List (List ℕ)} {k : ℕ} {B : List ℕ} {rest : List (List ℕ)}
    (hBr : IS = B :: rest) (hlen : ∀ C ∈ IS, C.length = k) :
    zip_star IS = (List.range k).map (fun i => IS.map (fun C => C.getD i 0)) := by
  subst hBr
  have h1 : zip_star (B :: rest) =
      (List.range (rest.foldl (fun m C => min m C.length) B.length)).map
        (fun i => (B :: rest).map (fun C => C.getD i 0)) := rfl
  have hB : B.length = k := hlen B (List.mem_cons_self B rest)
  rw [h1, hB, foldl_min_const (fun D hD => hlen D (List.mem_cons_of_mem B hD))]

/-- `perm_cons_erase` for an arbitrary lawful `BEq` instance. -/
theorem perm_cons_erase_beq {α : Type} [BEq α] [LawfulBEq α] {a : α} {l : List α}
    (h : a ∈ l) : l.Perm (a :: l.erase a) := by
  obtain ⟨l1, l2, _, e1, e2⟩ := List.exists_erase_eq h
  rw [e2]
  conv_lhs => rw [e1]
  exact List.perm_middle

/-- Removing a duplicate-free list of members one by one and putting them
back is a permutation of the original list. -/
theorem foldl_erase_append_perm : ∀ {IS OA : List (List ℕ)}, IS.Nodup →
    (∀ B ∈ IS, B ∈ OA) →
    ((IS.foldl (fun acc C => acc.erase C) OA) ++ IS).Perm OA := by
  intro IS
  induction IS with
  | nil =>
    intro OA _ _
    simp
  | cons B rest ih =>
    intro OA hnd hmem
    rw [List.foldl_cons]
    have hB : B ∈ OA := hmem B (List.mem_cons_self B rest)
    have hBnotin := (List.nodup_cons.1 hnd).1
    have hmem' : ∀ C ∈ rest, C ∈ OA.erase B := by
      intro C hC
      have hne : C ≠ B := fun hce => hBnotin (hce ▸ hC)
      rw [List.mem_erase_of_ne hne]
      exact hmem C (List.mem_cons_of_mem B hC)
    have hperm := ih (List.nodup_cons.1 hnd).2 hmem'
    have s1 : ((rest.foldl (fun acc C => acc.erase C) (OA.erase B)) ++ (B :: rest)).Perm
        (B :: ((rest.foldl (fun acc C => acc.erase C) (OA.erase B)) ++ rest)) :=
      List.perm_middle
    exact s1.trans ((hperm.cons B).trans (perm_cons_erase_beq hB).symm)

/-- Value of `OA_relabel` on a nonempty anchor list with per-column distinct
values: the per-column dictionary relabelling, with no RuntimeError. -/
theorem OA_relabel_blocks_eq {OA2 IS : List (List ℕ)} {k n : ℕ} {B : List ℕ}
    {rest : List (List ℕ)} (hBr : IS = B :: rest)
    (hISlen : ∀ C ∈ IS, C.length = k)
    (hnd : ∀ i, i < k → (IS.map (fun C => C.getD i 0)).Nodup) :
    OA_relabel OA2 k n IS none = .ok (OA2.map (fun R => R.enum.map (fun p =>
      (relabel_keys n (((List.range k).map (fun i =>
        IS.map (fun C => C.getD i 0))).getD p.1 [])).indexOf p.2))) := by
  unfold OA_relabel
  have hne : IS ≠ [] := by rw [hBr]; exact List.cons_ne_nil B rest
  rw [if_neg (fun hc => hne (List.isEmpty_iff.1 hc))]
  simp only
  rw [zip_star_eq hBr hISlen]
  have hanyf : ((List.range k).map (fun i => IS.map (fun C => C.getD i 0))).any
      (fun col => !decide col.Nodup) = false := by
    rw [List.any_eq_false]
    intro col hcol
    rw [List.mem_map] at hcol
    obtain ⟨i, hi, rfl⟩ := hcol
    rw [List.mem_range] at hi
    simp only [Bool.not_eq_true', decide_eq_false_iff_not]
    exact not_not_intro (hnd i hi)
  rw [if_neg (by rw [hanyf]; exact Bool.false_ne_true)]

/-- Reading column `i < k` out of the column list. -/
theorem cols_getD_eq {IS : List (List ℕ)} {k i : ℕ} (hi : i < k) :
    ((List.range k).map (fun i2 => IS.map (fun C => C.getD i2 0))).getD i [] =
      IS.map (fun C => C.getD i 0) := by
  have hl : i < ((List.range k).map (fun i2 => IS.map (fun C => C.getD i2 0))).length := by
    rw [List.length_map, List.length_range]
    exact hi
  rw [List.getD_eq_getElem _ _ hl, List.getElem_map, List.getElem_range]

/-- Specification of the removal-and-relabel tail of
`incomplete_orthogonal_array`: starting from a valid `OA(k, n, 2)` and an
independent set of `x` of its blocks with pairwise distinct values in every
column, it returns an array of `n^2 - x` rows over `[0, n)` which, completed
by the constant blocks `[n-x,...,n-x], ..., [n-1,...,n-1]`, is again a valid
`OA(k, n, 2)`. -/
theorem ioa_finish_spec {OA IS : List (List ℕ)} {k n x : ℕ} {c : OACache}
    (hOA : is_orthogonal_array OA k n 2 = true)
    (hk : 1 ≤ k)
    (hx : IS.length = x)
    (hmem : ∀ B ∈ IS, B ∈ OA)
    (hnd : ∀ i, i < k → (IS.map (fun C => C.getD i 0)).Nodup)
    {IOA : List (List ℕ)}
    (h : (ioa_finish OA IS k n x c).1 = .ok (.arr IOA)) :
    IOA.length = n ^ 2 - x ∧ (∀ R ∈ IOA, ∀ v ∈ R, v < n) ∧
    is_orthogonal_array (IOA ++ (List.range x).map (fun j => List.replicate k (n - x + j)))
      k n 2 = true := by
  obtain ⟨hlen2, hrows, hpairs⟩ := is_orthogonal_array_two_iff.1 hOA
  unfold ioa_finish at h
  rw [if_neg (by omega : ¬ x ≠ IS.length)] at h
  by_cases hE : IS = []
  · subst hE
    have hx0 : x = 0 := by simpa using hx.symm
    subst hx0
    have h2 : (Except.ok (OAOutput.arr OA) : Except OAErr OAOutput) = .ok (.arr IOA) := h
    have hIOA : IOA = OA := by
      injection h2 with ha
      injection ha with ha
      exact ha.symm
    subst hIOA
    refine ⟨by rw [hlen2]; omega, fun R hR v hv => (hrows R hR).2 v hv, ?_⟩
    simp only [List.range_zero, List.map_nil, List.append_nil]
    exact hOA
  · obtain ⟨B, rest, hBr⟩ : ∃ B rest, IS = B :: rest := by
      cases IS with
      | nil => exact absurd rfl hE
      | cons B rest => exact ⟨B, rest, rfl⟩
    have hISlen : ∀ C ∈ IS, C.length = k := fun C hC => (hrows C (hmem C hC)).1
    rw [OA_relabel_blocks_eq hBr hISlen hnd] at h
    have h2 : (Except.ok (OAOutput.arr
        ((IS.foldl (fun acc C => acc.erase C) OA).map (fun R => R.enum.map (fun p =>
          (relabel_keys n (((List.range k).map (fun i =>
            IS.map (fun C => C.getD i 0))).getD p.1 [])).indexOf p.2)))) :
        Except OAErr OAOutput) = .ok (.arr IOA) := h
    have hIOA : IOA = (IS.foldl (fun acc C => acc.erase C) OA).map (fun R =>
        R.enum.map (fun p =>
          (relabel_keys n (((List.range k).map (fun i =>
            IS.map (fun C => C.getD i 0))).getD p.1 [])).indexOf p.2)) := by
      injection h2 with ha
      injection ha with ha
      exact ha.symm
    -- Per-column facts
    have hcolnd : ∀ i, i < k → (IS.map (fun C => C.getD i 0)).Nodup := hnd
    have hcollen : ∀ i, i < k → (IS.map (fun C => C.getD i 0)).length = x := by
      intro i _
      rw [List.length_map, hx]
    have hcollt : ∀ i, i < k → ∀ v ∈ IS.map (fun C => C.getD i 0), v < n := by
      intro i hi v hv
      rw [List.mem_map] at hv
      obtain ⟨C, hC, rfl⟩ := hv
      have hClen := hISlen C hC
      have hi' : i < C.length := by omega
      rw [List.getD_eq_getElem _ _ hi']
      exact (hrows C (hmem C hC)).2 _ (List.getElem_mem hi')
    -- Bijectivity of the per-column dictionaries
    have hσlt : ∀ i, i < k → ∀ v, v < n →
        (fun i2 v2 => (relabel_keys n (((List.range k).map (fun i3 =>
          IS.map (fun C => C.getD i3 0))).getD i2 [])).indexOf v2) i v < n := by
      intro i hi v hv
      simp only
      rw [cols_getD_eq hi]
      exact relabel_keys_indexOf_lt (hcolnd i hi) (hcollen i hi) (hcollt i hi) hv
    have hσinj : ∀ i, i < k → ∀ u v, u < n → v < n →
        (fun i2 v2 => (relabel_keys n (((List.range k).map (fun i3 =>
          IS.map (fun C => C.getD i3 0))).getD i2 [])).indexOf v2) i u =
        (fun i2 v2 => (relabel_keys n (((List.range k).map (fun i3 =>
          IS.map (fun C => C.getD i3 0))).getD i2 [])).indexOf v2) i v → u = v := by
      intro i hi u v hu hv he
      simp only at he
      rw [cols_getD_eq hi] at he
      exact relabel_keys_indexOf_inj hu hv he
    have hσsurj : ∀ i, i < k → ∀ u, u < n → ∃ v, v < n ∧
        (fun i2 v2 => (relabel_keys n (((List.range k).map (fun i3 =>
          IS.map (fun C => C.getD i3 0))).getD i2 [])).indexOf v2) i v = u := by
      intro i hi u hu
      simp only
      rw [cols_getD_eq hi]
      exact relabel_keys_indexOf_surj (hcolnd i hi) (hcollen i hi) (hcollt i hi) hu
    have hvalid := relabel_map_valid
      (fun i2 v2 => (relabel_keys n (((List.range k).map (fun i3 =>
        IS.map (fun C => C.getD i3 0))).getD i2 [])).indexOf v2)
      hOA hσlt hσinj hσsurj
    -- The anchors land on the constant rows
    have hanchor : IS.map (fun R => R.enum.map (fun p =>
        (relabel_keys n (((List.range k).map (fun i =>
          IS.map (fun C => C.getD i 0))).getD p.1 [])).indexOf p.2)) =
        (List.range x).map (fun j => List.replicate k (n - x + j)) := by
      apply List.ext_getElem
      · rw [List.length_map, List.length_map, List.length_range, hx]
      · intro j hj1 hj2
        rw [List.length_map, hx] at hj1
        rw [List.getElem_map, List.getElem_map, List.getElem_range]
        have hjIS : j < IS.length := by omega
        have hRlen : IS[j].length = k := hISlen IS[j] (List.getElem_mem hjIS)
        rw [List.eq_replicate_iff]
        refine ⟨by rw [length_enum_map, hRlen], ?_⟩
        intro b hb
        rw [List.mem_iff_getElem] at hb
        obtain ⟨i, hi, rfl⟩ := hb
        have hi' : i < IS[j].length := by
          rw [length_enum_map] at hi
          exact hi
        have hik : i < k := by omega
        have he : (IS[j].enum.map (fun p =>
            (relabel_keys n (((List.range k).map (fun i3 =>
              IS.map (fun C => C.getD i3 0))).getD p.1 [])).indexOf p.2))[i] =
            (relabel_keys n (((List.range k).map (fun i3 =>
              IS.map (fun C => C.getD i3 0))).getD i [])).indexOf IS[j][i] := by
          rw [List.getElem_map, List.getElem_enum]
        rw [he, cols_getD_eq hik]
        have hjcol : j < (IS.map (fun C => C.getD i 0)).length := by
          rw [List.length_map]
          exact hjIS
        have hcolj : (IS.map (fun C => C.getD i 0))[j] = IS[j][i] := by
          rw [List.getElem_map, List.getD_eq_getElem _ _ hi']
        rw [← hcolj]
        rw [relabel_keys_indexOf_anchor (hcolnd i hik) (hcollen i hik) (hcollt i hik) hjcol]
    -- Assemble by permutation with the relabelled full array
    have hISnd : IS.Nodup := List.Nodup.of_map (fun C => C.getD 0 0) (hnd 0 (by omega))
    have hperm : ((IS.foldl (fun acc C => acc.erase C) OA) ++ IS).Perm OA :=
      foldl_erase_append_perm hISnd hmem
    have hlenOA2 : (IS.foldl (fun acc C => acc.erase C) OA).length = n ^ 2 - x := by
      have := hperm.length_eq
      rw [List.length_append, hx, hlen2] at this
      omega
    have hpermmap := hperm.map (fun R => R.enum.map (fun p =>
      (relabel_keys n (((List.range k).map (fun i =>
        IS.map (fun C => C.getD i 0))).getD p.1 [])).indexOf p.2))
    have htarget : is_orthogonal_array (IOA ++ (List.range x).map (fun j =>
        List.replicate k (n - x + j))) k n 2 = true := by
      rw [hIOA, ← hanchor, ← List.map_append]
      rw [is_orthogonal_array_perm hpermmap]
      exact hvalid
    refine ⟨by rw [hIOA, List.length_map, hlenOA2], ?_, htarget⟩
    intro R hR v hv
    have hRin : R ∈ IOA ++ (List.range x).map (fun j => List.replicate k (n - x + j)) :=
      List.mem_append_left _ hR
    exact ((is_orthogonal_array_two_iff.1 htarget).2.1 R hRin).2 v hv

/-- On a row of length `k + 1`, `B[-1]` is the entry in column `k`. -/
theorem getLastD_eq_getD {R : List ℕ} {k : ℕ} (h : R.length = k + 1) :
    R.getLastD 0 = R.getD k 0 := by
  have hk : k < R.length := by omega
  rw [List.getLastD_eq_getLast?, List.getLast?_eq_getElem?]
  rw [show R.length - 1 = k by omega]
  rw [List.getElem?_eq_getElem hk, List.getD_eq_getElem _ _ hk]
  rfl

/-- Dropping the last column of a valid `OA(k+1, n, 2)` yields a valid
`OA(k, n, 2)`. -/
theorem is_orthogonal_array_dropLast {OA1 : List (List ℕ)} {k n : ℕ}
    (h : is_orthogonal_array OA1 (k + 1) n 2 = true) :
    is_orthogonal_array (OA1.map (fun R2 => R2.dropLast)) k n 2 = true := by
  obtain ⟨h1, h2, h3⟩ := is_orthogonal_array_two_iff.1 h
  rw [is_orthogonal_array_two_iff]
  refine ⟨by rw [List.length_map]; exact h1, ?_, ?_⟩
  · intro Q hQ
    rw [List.mem_map] at hQ
    obtain ⟨R, hR, rfl⟩ := hQ
    obtain ⟨hRlen, hRmem⟩ := h2 R hR
    refine ⟨by rw [List.length_dropLast, hRlen]; omega, ?_⟩
    intro v hv
    exact hRmem v ((List.dropLast_sublist R).subset hv)
  · intro i j u v hij hjk hu hv
    rw [List.countP_map]
    have hcong : ∀ R ∈ OA1,
        (((fun Q : List ℕ => decide (Q.getD i 0 = u) && decide (Q.getD j 0 = v)) ∘
          (fun R2 : List ℕ => R2.dropLast)) R = true) ↔
        ((fun R2 : List ℕ => decide (R2.getD i 0 = u) && decide (R2.getD j 0 = v)) R
          = true) := by
      intro R hR
      obtain ⟨hRlen, _⟩ := h2 R hR
      have hdl : R.dropLast.length = k := by
        rw [List.length_dropLast, hRlen]
        omega
      have hi1 : i < R.dropLast.length := by omega
      have hj1 : j < R.dropLast.length := by omega
      have hi2 : i < R.length := by omega
      have hj2 : j < R.length := by omega
      simp only [Function.comp_apply]
      rw [List.getD_eq_getElem _ _ hi1, List.getD_eq_getElem _ _ hj1,
        List.getD_eq_getElem _ _ hi2, List.getD_eq_getElem _ _ hj2,
        List.getElem_dropLast, List.getElem_dropLast]
    rw [List.countP_congr hcong]
    exact h3 i j u v hij (by omega) hu hv

/-- In a valid `OA(k+1, n, 2)` with `k ≥ 1` there are exactly `n` blocks whose
last coordinate is `0`. -/
theorem filter_last_zero_length {OA1 : List (List ℕ)} {k n : ℕ}
    (h : is_orthogonal_array OA1 (k + 1) n 2 = true) (hk : 1 ≤ k) :
    (OA1.filter (fun B2 => decide (B2.getLastD 0 = 0))).length = n := by
  obtain ⟨h1, h2, h3⟩ := is_orthogonal_array_two_iff.1 h
  by_cases hn : n = 0
  · subst hn
    have h0 : OA1 = [] := List.length_eq_zero.1 (by rw [h1]; simp)
    rw [h0]
    rfl
  rw [← List.countP_eq_length_filter]
  have hsplit := countP_eq_sum_split OA1 (fun B2 => decide (B2.getLastD 0 = 0))
      (fun B2 => B2.getD 0 0) n ?_
  · rw [hsplit]
    have hmapone : ((List.range n).map (fun u => OA1.countP (fun B2 =>
        decide (B2.getLastD 0 = 0) && decide (B2.getD 0 0 = u)))) =
        (List.range n).map (fun _ => 1) := by
      apply List.map_congr_left
      intro u hu
      rw [List.mem_range] at hu
      have hcong : ∀ R ∈ OA1,
          ((fun B2 => decide (B2.getLastD 0 = 0) && decide (B2.getD 0 0 = u)) R = true) ↔
          ((fun R2 : List ℕ => decide (R2.getD 0 0 = u) && decide (R2.getD k 0 = 0)) R
            = true) := by
        intro R hR
        obtain ⟨hRlen, _⟩ := h2 R hR
        simp only [Bool.and_eq_true, decide_eq_true_eq]
        rw [getLastD_eq_getD hRlen]
        exact and_comm
      rw [List.countP_congr hcong]
      exact h3 0 k u 0 (by omega) (by omega) hu (by omega)
    rw [hmapone, List.map_const', List.sum_const_nat, List.length_range]
    omega
  · intro B2 hB2 _
    obtain ⟨hRlen, hRmem⟩ := h2 B2 hB2
    have h0 : 0 < B2.length := by omega
    show B2.getD 0 0 < n
    rw [List.getD_eq_getElem _ _ h0]
    exact hRmem _ (List.getElem_mem h0)

/-- The truncated blocks with last coordinate `0` carry pairwise distinct
values in every remaining column. -/
theorem routeB_col_nodup {OA1 : List (List ℕ)} {k n x i : ℕ}
    (h : is_orthogonal_array OA1 (k + 1) n 2 = true) (hik : i < k) :
    ((((OA1.filter (fun B2 => decide (B2.getLastD 0 = 0))).take x).map
      (fun B2 => B2.dropLast)).map (fun C => C.getD i 0)).Nodup := by
  obtain ⟨h1, h2, h3⟩ := is_orthogonal_array_two_iff.1 h
  have hTsub : List.Sublist
      ((OA1.filter (fun B2 => decide (B2.getLastD 0 = 0))).take x) OA1 :=
    (List.take_sublist x _).trans (List.filter_sublist _)
  have hTmem : ∀ R ∈ (OA1.filter (fun B2 => decide (B2.getLastD 0 = 0))).take x,
      R ∈ OA1 := fun R hR => hTsub.subset hR
  have hTlast : ∀ R ∈ (OA1.filter (fun B2 => decide (B2.getLastD 0 = 0))).take x,
      R.getLastD 0 = 0 := by
    intro R hR
    have hmf : R ∈ OA1.filter (fun B2 => decide (B2.getLastD 0 = 0)) :=
      (List.take_subset x _) hR
    have := (List.mem_filter.1 hmf).2
    simpa using this
  rw [List.map_map]
  have hmapeq : ((OA1.filter (fun B2 => decide (B2.getLastD 0 = 0))).take x).map
      ((fun C => C.getD i 0) ∘ (fun B2 => B2.dropLast)) =
      ((OA1.filter (fun B2 => decide (B2.getLastD 0 = 0))).take x).map
        (fun R => R.getD i 0) := by
    apply List.map_congr_left
    intro R hR
    obtain ⟨hRlen, _⟩ := h2 R (hTmem R hR)
    simp only [Function.comp_apply]
    have hi1 : i < R.dropLast.length := by
      rw [List.length_dropLast, hRlen]
      omega
    have hi2 : i < R.length := by omega
    rw [List.getD_eq_getElem _ _ hi1, List.getD_eq_getElem _ _ hi2,
      List.getElem_dropLast]
  rw [hmapeq]
  have hpw : ((OA1.filter (fun B2 => decide (B2.getLastD 0 = 0))).take x).Pairwise
      (fun R1 R2 => ((fun R => R.getD i 0) R1) ≠ ((fun R => R.getD i 0) R2)) := by
    rw [List.pairwise_iff_getElem]
    intro a b ha hb hab heq
    simp only at heq
    set T := (OA1.filter (fun B2 => decide (B2.getLastD 0 = 0))).take x with hTdef
    have hn0 : 0 < n := by
      rcases Nat.eq_zero_or_pos n with h0 | h0
      · exfalso
        have hOAnil : OA1 = [] := List.length_eq_zero.1 (by rw [h1, h0]; simp)
        have : T.length = 0 := by
          rw [hTdef, hOAnil]
          simp
        omega
      · exact h0
    have hvlt : T[a].getD i 0 < n := by
      obtain ⟨hRlen, hRmem⟩ := h2 T[a] (hTmem T[a] (List.getElem_mem ha))
      have hi2 : i < T[a].length := by omega
      rw [List.getD_eq_getElem _ _ hi2]
      exact hRmem _ (List.getElem_mem hi2)
    have hgk : ∀ (c : ℕ) (hc : c < T.length), T[c].getD k 0 = 0 := by
      intro c hc
      obtain ⟨hRlen, _⟩ := h2 T[c] (hTmem T[c] (List.getElem_mem hc))
      rw [← getLastD_eq_getD hRlen]
      exact hTlast T[c] (List.getElem_mem hc)
    have hpa : (fun R => decide (R.getD i 0 = T[a].getD i 0) &&
        decide (R.getD k 0 = 0)) T[a] = true := by
      simp only [Bool.and_eq_true, decide_eq_true_eq]
      exact ⟨trivial, hgk a ha⟩
    have hpb : (fun R => decide (R.getD i 0 = T[a].getD i 0) &&
        decide (R.getD k 0 = 0)) T[b] = true := by
      simp only [Bool.and_eq_true, decide_eq_true_eq]
      exact ⟨heq.symm, hgk b hb⟩
    have h2c := @two_le_countP (List ℕ) T (fun R => decide (R.getD i 0 = T[a].getD i 0) &&
        decide (R.getD k 0 = 0)) a b hab hb hpa hpb
    have hle : List.countP (fun R => decide (R.getD i 0 = T[a].getD i 0) &&
        decide (R.getD k 0 = 0)) T ≤ List.countP (fun R => decide (R.getD i 0 = T[a].getD i 0) &&
        decide (R.getD k 0 = 0)) OA1 := List.Sublist.countP_le _ hTsub
    have hone := h3 i k (T[a].getD i 0) 0 hik (by omega) hvlt hn0
    omega
  exact List.Pairwise.map _ (fun a b hab => hab) hpw

/-- When the projective-plane guard is off, a falsy decision verdict of the
hard chain can only be the final Unknown, which records `(k, n, Unknown)`. -/
theorem oa_hard_exist_falsy_noguard {env : OAEnv} {k n : ℕ} {may1 : Bool} {c1 : OACache}
    {r : OAOutput} {c2 : OACache}
    (hg1 : ¬ ((env.pp_exists n).toBool = true ∨ (k = n + 1 ∧ env.pp_exists n = .F)))
    (h : oa_hard env k n true true may1 c1 = (.ok r, c2))
    (hf : r.truthy = false) :
    r = .tri .U ∧ c2 = OA_cache_set k n .U c1 := by
  unfold oa_hard at h
  rw [if_neg hg1] at h
  by_cases g2 : may1 = true ∧
      (match env.OA_constructions n with
        | some km => decide (k ≤ km.1) | none => false) = true
  · rw [if_pos g2] at h
    cases hoc : env.OA_constructions n with
    | none =>
      rw [hoc] at h
      injection h with ha _
      cases ha
    | some km =>
      rw [hoc] at h
      simp only at h
      rw [if_pos trivial] at h
      injection h with ha _
      injection ha with ha
      rw [← ha] at hf
      exact absurd hf (by decide)
  · rw [if_neg g2] at h
    by_cases g3 : may1 = true ∧ k ≤ 6 ∧ n = 12
    · rw [if_pos g3] at h
      simp only at h
      rw [if_pos trivial] at h
      injection h with ha _
      injection ha with ha
      rw [← ha] at hf
      exact absurd hf (by decide)
    · rw [if_neg g3] at h
      by_cases g4 : may1 = true ∧
          (match env.MOLS_constructions n with
            | some mm => decide (k - 2 ≤ mm.1) | none => false) = true
      · rw [if_pos g4] at h
        cases hoc : env.MOLS_constructions n with
        | none =>
          rw [hoc] at h
          injection h with ha _
          cases ha
        | some mm =>
          rw [hoc] at h
          simp only at h
          rw [if_pos trivial] at h
          injection h with ha _
          injection ha with ha
          rw [← ha] at hf
          exact absurd hf (by decide)
      · rw [if_neg g4] at h
        by_cases g5 : may1 = true ∧ (env.find_recursive k n).isSome = true
        · rw [if_pos g5] at h
          simp only at h
          rw [if_pos trivial] at h
          injection h with ha _
          injection ha with ha
          rw [← ha] at hf
          exact absurd hf (by decide)
        · rw [if_neg g5] at h
          simp only at h
          rw [if_pos trivial] at h
          injection h with ha hb
          injection ha with ha
          exact ⟨ha.symm, hb.symm⟩

/-- After the final-Unknown record is written at `(k, n)`, the cache reports
that no construction is available there. -/
theorem construction_available_F_after_U {k n : ℕ} {c1 : OACache} (hk : 1 ≤ k)
    (hmt : ∀ e, c1 n = some e → ∃ m, e.max_true = some m ∧ m < k) :
    OA_cache_construction_available k n (OA_cache_set k n .U c1) = .F := by
  unfold OA_cache_construction_available
  rw [OA_cache_set_self]
  cases hc : c1 n with
  | none =>
    show (if (match (some 0 : Option ℕ) with
        | none => true | some m => decide (k ≤ m)) = true then TriBool.T
      else if (match (some k : Option ℕ) with
        | none => false | some mu => decide (mu ≤ k)) = true then TriBool.F
      else TriBool.U) = TriBool.F
    rw [if_neg (by
      show ¬ (decide (k ≤ 0) = true)
      simp
      omega)]
    rw [if_pos (by
      show decide (k ≤ k) = true
      simp)]
  | some e =>
    obtain ⟨m, hm, hmk⟩ := hmt e hc
    obtain ⟨mt, mu, Mu, mf⟩ := e
    simp only at hm
    subst hm
    cases mu with
    | none =>
      show (if (match (some m : Option ℕ) with
          | none => true | some m2 => decide (k ≤ m2)) = true then TriBool.T
        else if (match (some k : Option ℕ) with
          | none => false | some mu2 => decide (mu2 ≤ k)) = true then TriBool.F
        else TriBool.U) = TriBool.F
      rw [if_neg (by
        show ¬ (decide (k ≤ m) = true)
        simp
        omega)]
      rw [if_pos (by
        show decide (k ≤ k) = true
        simp)]
    | some m0 =>
      show (if (match (some m : Option ℕ) with
          | none => true | some m2 => decide (k ≤ m2)) = true then TriBool.T
        else if (match (some (if k < m0 then k else m0) : Option ℕ) with
          | none => false | some mu2 => decide (mu2 ≤ k)) = true then TriBool.F
        else TriBool.U) = TriBool.F
      rw [if_neg (by
        show ¬ (decide (k ≤ m) = true)
        simp
        omega)]
      rw [if_pos (by
        show decide ((if k < m0 then k else m0) ≤ k) = true
        by_cases h0 : k < m0
        · rw [if_pos h0]
          simp
        · rw [if_neg h0]
          simp
          omega)]

/-- With the projective-plane oracle falsy, `k ≠ n + 1` and no cache-suggested
construction, the hard chain of a build raises NotImplementedError. -/
theorem oa_hard_build_fails_after_U {env : OAEnv} {k n : ℕ} {c : OACache}
    (hpp : (env.pp_exists n).toBool = false) (hkn1 : k ≠ n + 1) :
    (oa_hard env k n true false false c).1 = .error .notImplementedError := by
  unfold oa_hard
  rw [if_neg (by
    rintro (ht | ⟨he, _⟩)
    · rw [hpp] at ht
      cases ht
    · exact hkn1 he)]
  rw [if_neg (by simp), if_neg (by simp), if_neg (by simp), if_neg (by simp)]
  simp only
  rw [if_neg Bool.false_ne_true]

/-- The final-else route of `incomplete_orthogonal_array` cannot return an
array: when both decision queries come back falsy on a cache with no record at
`n`, the subsequent build is doomed. -/
theorem routeD_no_array {env : OAEnv} {k n : ℕ} {cache c1 c2 : OACache}
    {r1 r2 : OAOutput} {A : List (List ℕ)}
    (hcache : cache n = none) (hkn1 : k ≠ n + 1)
    (h1 : orthogonal_array env (k + 1) n 2 true true cache = (.ok r1, c1))
    (hf1 : r1.truthy = false)
    (h2 : orthogonal_array env k n 2 true true c1 = (.ok r2, c2))
    (hf2 : r2.truthy = false)
    (h3 : (orthogonal_array env k n 2 true false c2).1 = .ok (.arr A)) :
    False := by
  by_cases hklt : k < 2
  · unfold orthogonal_array at h2
    rw [if_pos hklt] at h2
    injection h2 with ha _
    cases ha
  have hk2 : 2 ≤ k := by omega
  unfold orthogonal_array at h1
  rw [if_neg (by omega : ¬ k + 1 < 2)] at h1
  rw [if_neg (by
    intro hc
    rw [OA_cache_get_none hcache] at hc
    simp at hc)] at h1
  simp only at h1
  by_cases hn1 : n ≤ 1
  · rw [if_pos hn1, if_pos trivial] at h1
    injection h1 with ha _
    injection ha with ha
    rw [← ha] at hf1
    exact absurd hf1 (by decide)
  rw [if_neg hn1] at h1
  by_cases hA : n + 2 ≤ k + 1
  · have hkn2 : n + 2 ≤ k := by omega
    rw [if_pos hA, if_pos trivial] at h1
    injection h1 with _ hb
    unfold orthogonal_array at h2
    rw [if_neg (by omega : ¬ k < 2)] at h2
    rw [if_neg (by
      intro hc
      rw [← hb, OA_cache_get_none hcache] at hc
      simp at hc)] at h2
    simp only at h2
    rw [if_neg hn1, if_pos hkn2, if_pos trivial] at h2
    injection h2 with _ hb2
    unfold orthogonal_array at h3
    rw [if_neg (by omega : ¬ k < 2)] at h3
    rw [if_neg (by simp)] at h3
    simp only at h3
    rw [if_neg hn1, if_pos hkn2, if_neg Bool.false_ne_true] at h3
    simp at h3
  rw [if_neg hA] at h1
  have hkn : k ≤ n := by omega
  rw [if_neg (by omega : ¬ k + 1 ≤ 2)] at h1
  rw [if_neg (by omega : ¬ (2 : ℕ) ≠ 2)] at h1
  by_cases hk3 : k + 1 ≤ 3
  · rw [if_pos hk3, if_pos trivial] at h1
    injection h1 with ha _
    injection ha with ha
    rw [← ha] at hf1
    exact absurd hf1 (by decide)
  rw [if_neg hk3] at h1
  have hfacts : (env.pp_exists n).toBool = false ∧
      (c1 n = some ⟨some 0, some (k + 1), some (k + 1), some (n + 2)⟩ ∨
       c1 n = some ⟨some 0, none, none, some (n + 1)⟩) := by
    by_cases g1 : (env.pp_exists n).toBool = true ∨ (k + 1 = n + 1 ∧ env.pp_exists n = .F)
    · unfold oa_hard at h1
      rw [if_pos g1] at h1
      simp only at h1
      by_cases hkn1' : k + 1 = n + 1
      · rw [if_pos hkn1', if_pos trivial] at h1
        injection h1 with ha hb
        injection ha with ha
        rw [← ha] at hf1
        have hppf : (env.pp_exists n).toBool = false := hf1
        have hppF : env.pp_exists n = .F := by
          rcases g1 with ht | ⟨_, hF⟩
          · rw [hppf] at ht
            cases ht
          · exact hF
        refine ⟨hppf, Or.inr ?_⟩
        rw [← hb, OA_cache_set_self, hcache, hppF]
        show some (OA_cache_update (n + 1) .F ⟨some 0, none, none, some (n + 2)⟩) = _
        show some (⟨some 0, none, none,
          if n + 1 < n + 2 then some (n + 1) else some (n + 2)⟩ : OACacheEntry) = _
        rw [if_pos (by omega)]
      · rw [if_neg hkn1', if_pos trivial] at h1
        injection h1 with ha _
        injection ha with ha
        rw [← ha] at hf1
        exact absurd hf1 (by decide)
    · obtain ⟨_, hc1⟩ := oa_hard_exist_falsy_noguard g1 h1 hf1
      have hppf : (env.pp_exists n).toBool = false := by
        by_cases hb : (env.pp_exists n).toBool = true
        · exact absurd (Or.inl hb) g1
        · exact Bool.not_eq_true _ ▸ (Bool.eq_false_iff.2 hb)
      refine ⟨hppf, Or.inl ?_⟩
      rw [hc1, OA_cache_set_self, hcache]
      rfl
  obtain ⟨hppf, hrec⟩ := hfacts
  have hget2 : OA_cache_get k n c1 = none := by
    unfold OA_cache_get
    rcases hrec with hrec | hrec
    · rw [hrec]
      show OA_cache_lookup k ⟨some 0, some (k + 1), some (k + 1), some (n + 2)⟩ = none
      unfold OA_cache_lookup
      rw [if_neg (by
        show ¬ (decide (k ≤ 0) = true)
        simp
        omega)]
      rw [if_neg (by
        show ¬ ((decide (k + 1 ≤ k) && decide (k ≤ k + 1)) = true)
        simp only [Bool.and_eq_true, decide_eq_true_eq]
        omega)]
      rw [if_neg (by
        show ¬ (decide (n + 2 ≤ k) = true)
        simp
        omega)]
    · rw [hrec]
      show OA_cache_lookup k ⟨some 0, none, none, some (n + 1)⟩ = none
      unfold OA_cache_lookup
      rw [if_neg (by
        show ¬ (decide (k ≤ 0) = true)
        simp
        omega)]
      rw [if_neg (by
        show ¬ (false = true)
        simp)]
      rw [if_neg (by
        show ¬ (decide (n + 1 ≤ k) = true)
        simp
        omega)]
  have hmt1 : ∀ e, c1 n = some e → ∃ m, e.max_true = some m ∧ m < k := by
    intro e he
    rcases hrec with hrec | hrec <;>
      · rw [hrec] at he
        injection he with he
        rw [← he]
        exact ⟨0, rfl, by omega⟩
  unfold orthogonal_array at h2
  rw [if_neg (by omega : ¬ k < 2)] at h2
  rw [if_neg (by
    intro hc
    rw [hget2] at hc
    simp at hc)] at h2
  simp only at h2
  rw [if_neg hn1] at h2
  rw [if_neg (by omega : ¬ n + 2 ≤ k)] at h2
  by_cases hk22 : k ≤ 2
  · rw [if_pos hk22, if_pos trivial] at h2
    injection h2 with ha _
    injection ha with ha
    rw [← ha] at hf2
    exact absurd hf2 (by decide)
  rw [if_neg hk22] at h2
  rw [if_neg (by omega : ¬ (2 : ℕ) ≠ 2)] at h2
  by_cases hk32 : k ≤ 3
  · rw [if_pos hk32, if_pos trivial] at h2
    injection h2 with ha _
    injection ha with ha
    rw [← ha] at hf2
    exact absurd hf2 (by decide)
  rw [if_neg hk32] at h2
  obtain ⟨_, hc2⟩ := oa_hard_exist_falsy_noguard (by
    rintro (ht | ⟨he, _⟩)
    · rw [hppf] at ht
      cases ht
    · exact hkn1 he) h2 hf2
  unfold orthogonal_array at h3
  rw [if_neg (by omega : ¬ k < 2)] at h3
  rw [if_neg (by simp)] at h3
  simp only at h3
  rw [if_neg hn1] at h3
  rw [if_neg (by omega : ¬ n + 2 ≤ k)] at h3
  rw [if_neg hk22] at h3
  rw [if_neg (by omega : ¬ (2 : ℕ) ≠ 2)] at h3
  rw [if_neg hk32] at h3
  have hav : OA_cache_construction_available k n c2 = .F := by
    rw [hc2]
    exact construction_available_F_after_U (by omega) hmt1
  rw [hav] at h3
  rw [show decide ((TriBool.F : TriBool) ≠ .F) = false from rfl] at h3
  rw [oa_hard_build_fails_after_U hppf hkn1] at h3
  cases h3

/-- Unit holes are all positive. -/
theorem replicate_all_pos (x : ℕ) :
    (List.replicate x 1).all (fun s => decide (0 < s)) = true := by
  rw [List.all_eq_true]
  intro s hs
  rw [List.eq_of_mem_replicate hs]
  decide

/-- Unit holes contain no size other than 1. -/
theorem replicate_any_ne (x : ℕ) :
    (List.replicate x 1).any (fun s => decide (s ≠ 1)) = false := by
  rw [List.any_eq_false]
  intro s hs
  rw [List.eq_of_mem_replicate hs]
  decide

/-- C10.  For every `k`, `n` and `x` such that
`incomplete_orthogonal_array(k, n, [1]*x)` (with `x` unit holes, a sound
integer-program solver and no pre-existing cache record for `n`) successfully
returns an array, the returned array has exactly `n^2 - x` rows with all
entries in `[0, n)`, and appending to it the `x` constant rows
`[n-x,...,n-x], ..., [n-1,...,n-1]` yields a valid `OA(k, n, 2)`. -/
theorem C10_incomplete_unit_holes (env : OAEnv) (k n x : ℕ) (cache : OACache)
    (hsolver : SolverSound env.solve_ilp) (hcache : cache n = none)
    (IOA : List (List ℕ))
    (h : (incomplete_orthogonal_array env k n (List.replicate x 1) false cache).1 =
      .ok (.arr IOA)) :
    IOA.length = n ^ 2 - x ∧ (∀ R ∈ IOA, ∀ v ∈ R, v < n) ∧
    is_orthogonal_array (IOA ++ (List.range x).map (fun j => List.replicate k (n - x + j)))
      k n 2 = true := by
  unfold incomplete_orthogonal_array at h
  rw [if_neg (not_not_intro (replicate_all_pos x))] at h
  simp only at h
  rw [sum_replicate_one, List.length_replicate] at h
  by_cases hyx : n < x
  · rw [if_pos hyx, if_neg Bool.false_ne_true] at h
    simp at h
  rw [if_neg hyx] at h
  rw [if_neg (by rw [replicate_any_ne]; exact Bool.false_ne_true)] at h
  by_cases hx1 : x ≤ 1
  · -- Route A: the easy case
    rw [if_pos hx1, if_neg Bool.false_ne_true] at h
    split at h
    · rename_i OA c1 heq
      have hOAvalid : is_orthogonal_array OA k n 2 = true :=
        oa_build_valid env k n 2 cache OA (by rw [heq])
      have hk1 : 1 ≤ k := by
        by_contra hknot
        unfold orthogonal_array at heq
        rw [if_pos (by omega : k < 2)] at heq
        injection heq with ha _
        cases ha
      have hOAlen : OA.length = n ^ 2 := (is_orthogonal_array_two_iff.1 hOAvalid).1
      have hxle : x ≤ OA.length := by
        rw [hOAlen]
        rcases Nat.eq_zero_or_pos n with h0 | h0
        · omega
        · have := pow_pos h0 2
          omega
      exact ioa_finish_spec hOAvalid hk1
        (by rw [List.length_take]; omega)
        (fun B hB => List.take_subset x OA hB)
        (fun i _ => nodup_of_length_le_one
          (by rw [List.length_map, List.length_take]; omega))
        h
    · rename_i v c1 heq
      simp at h
    · rename_i e c1 heq
      simp at h
  -- x ≥ 2
  rw [if_neg hx1] at h
  rw [if_neg (by simp : ¬ (x ≤ 3 ∧ k - 1 < n ∧ 3 ≤ k ∧ false = true))] at h
  by_cases hpp : 2 ≤ x ∧ k = n + 1
  · rw [if_pos hpp, if_neg Bool.false_ne_true] at h
    simp at h
  rw [if_neg hpp] at h
  have hkn1 : k ≠ n + 1 := fun he => hpp ⟨by omega, he⟩
  split at h
  · -- query 1 raised
    rename_i e c1 heq1
    simp at h
  rename_i r1 c1 heq1
  by_cases hr1 : r1.truthy = true
  · -- Route B: via OA(k+1, n)
    rw [if_pos hr1, if_neg Bool.false_ne_true] at h
    split at h
    · rename_i e c2 heqB
      simp at h
    · rename_i v c2 heqB
      simp at h
    rename_i OA1 c2 heqB
    have hOA1valid : is_orthogonal_array OA1 (k + 1) n 2 = true :=
      oa_build_valid env (k + 1) n 2 c1 OA1 (by rw [heqB])
    have hk1 : 1 ≤ k := by
      by_contra hknot
      unfold orthogonal_array at heqB
      rw [if_pos (by omega : k + 1 < 2)] at heqB
      injection heqB with ha _
      cases ha
    obtain ⟨k0, hk0⟩ : ∃ k0, k = k0 + 1 := ⟨k - 1, by omega⟩
    subst hk0
    have hOAvalid : is_orthogonal_array (OA1.map (fun R2 => R2.dropLast)) (k0 + 1) n 2
        = true := is_orthogonal_array_dropLast hOA1valid
    have hflen : (OA1.filter (fun B2 => decide (B2.getLastD 0 = 0))).length = n :=
      filter_last_zero_length hOA1valid (by omega)
    rw [← List.map_take] at h
    refine ioa_finish_spec hOAvalid (by omega) ?_ ?_ ?_ h
    · rw [List.length_map, List.length_take]
      omega
    · intro B hB
      rw [List.mem_map] at hB
      obtain ⟨R, hR, rfl⟩ := hB
      rw [List.mem_map]
      exact ⟨R, ((List.take_sublist x _).trans (List.filter_sublist _)).subset hR, rfl⟩
    · intro i hi
      exact routeB_col_nodup hOA1valid hi
  · -- query 2
    rw [if_neg hr1] at h
    split at h
    · rename_i e c2 heq2
      simp at h
    rename_i r2 c2 heq2
    by_cases hr2 : r2.truthy = true
    · -- Route C: disjoint-block search on a built OA(k, n)
      rw [if_pos hr2] at h
      split at h
      · rename_i e c3 heq3
        simp at h
      · rename_i v c3 heq3
        simp at h
      rename_i OA c3 heq3
      have hOAvalid : is_orthogonal_array OA k n 2 = true :=
        oa_build_valid env k n 2 c2 OA (by rw [heq3])
      have hk1 : 1 ≤ k := by
        by_contra hknot
        unfold orthogonal_array at heq3
        rw [if_pos (by omega : k < 2)] at heq3
        injection heq3 with ha _
        cases ha
      split at h
      · rename_i heqIS
        rw [if_neg Bool.false_ne_true] at h
        simp at h
      rename_i IS heqIS
      rw [if_neg Bool.false_ne_true] at h
      obtain ⟨hlen, hmem, hnd⟩ :=
        (find_disjoint_spec env.solve_ilp OA k n x hsolver hOAvalid hk1).1
          (by omega) IS heqIS
      exact ioa_finish_spec hOAvalid hk1 hlen hmem hnd h
    · -- Route D: the final delegation cannot return an array
      rw [if_neg hr2] at h
      exact absurd h (by
        intro hcon
        exact routeD_no_array hcache hkn1 heq1
          (by rw [Bool.not_eq_true] at hr1; exact hr1) heq2
          (by rw [Bool.not_eq_true] at hr2; exact hr2) hcon)

/-- The trivial environment carries a trivially sound solver: it never returns
an assignment. -/
theorem env_triv_solver_sound : SolverSound env_triv.solve_ilp :=
  fun _ _ _ _ _ hb => Option.noConfusion hb

theorem C10_incomplete_unit_holes_witness :
    SolverSound env_triv.solve_ilp ∧ OA_cache_init 2 = none ∧
    (incomplete_orthogonal_array env_triv 2 2 (List.replicate 1 1) false OA_cache_init).1 =
      .ok (.arr [[1, 0], [0, 1], [0, 0]]) ∧
    ([[1, 0], [0, 1], [0, 0]].length = 2 ^ 2 - 1 ∧
     (∀ R ∈ [[1, 0], [0, 1], [0, 0]], ∀ v ∈ R, v < 2) ∧
     is_orthogonal_array ([[1, 0], [0, 1], [0, 0]] ++
       (List.range 1).map (fun j => List.replicate 2 (2 - 1 + j))) 2 2 2 = true) :=
  ⟨env_triv_solver_sound, rfl, by rfl,
    C10_incomplete_unit_holes env_triv 2 2 1 OA_cache_init env_triv_solver_sound rfl
      [[1, 0], [0, 1], [0, 0]] (by rfl)⟩

end OASpec
